import Mathlib

/-!
Verification of the two core algorithms of the fipadoc-app repository:

* the overlap-layout engine of src/lib/schedule-utils.ts
  (seancesOverlap, calculateOverlapLayout), and
* the favorites identity migration of src/lib/favorites.ts
  (isIndexedDBAvailable, isMigrationComplete, markMigrationComplete,
  isOldFormat, parseOldFavorite, migrateFavorites).

Times are modelled as minutes since midnight (the source converts its
time strings of the form HH:MM with timeToMinutes before every
comparison, so the algorithms only ever see minute counts).  JavaScript Maps are modelled as
association lists inserted in program order; the IndexedDB favorites
store (keyed by filmId) is modelled as an association list with
put = replace-or-append and delete = remove-by-key.
-/

namespace Fipadoc

/-- Events as seen by the layout engine: start and end of a screening in
minutes since midnight (source: interface constraint
T extends \x7b heureDebut: string; heureFin: string \x7d after timeToMinutes). -/
structure Seance where
  heureDebut : Nat
  heureFin : Nat
deriving DecidableEq, Repr

/-- Array indexing seances[i], with an arbitrary default out of range
(the algorithm only indexes in range). -/
def getS (ss : List Seance) (i : Nat) : Seance := ss.getD i ⟨0, 0⟩

/-- Source: seancesOverlap in src/lib/schedule-utils.ts, lines 358-369:
aStart < bEnd && bStart < aEnd. -/
def seancesOverlap (a b : Seance) : Bool :=
  decide (a.heureDebut < b.heureFin) && decide (b.heureDebut < a.heureFin)

/-- Layout record returned per event (source: interface SeanceLayout). -/
structure SeanceLayout where
  column : Nat
  totalColumns : Nat
deriving DecidableEq, Repr

/-- Comparison key used by both sorts in calculateOverlapLayout:
timeToMinutes(seances[a].heureDebut) <= timeToMinutes(seances[b].heureDebut). -/
def startLE (ss : List Seance) (a b : Nat) : Prop :=
  (getS ss a).heureDebut ≤ (getS ss b).heureDebut

instance (ss : List Seance) : DecidableRel (startLE ss) :=
  fun _ _ => Nat.decLe _ _

instance (ss : List Seance) : IsTotal Nat (startLE ss) :=
  ⟨fun _ _ => Nat.le_total _ _⟩

instance (ss : List Seance) : IsTrans Nat (startLE ss) :=
  ⟨fun _ _ _ => Nat.le_trans⟩

/-- JavaScript Array.prototype.sort with comparator
(a, b) => start(a) - start(b) is a stable sort by start time; modelled by
a stable insertion sort on the indices. -/
def sortByStart (ss : List Seance) (l : List Nat) : List Nat :=
  l.insertionSort (startLE ss)

/-- One pass of the inner expansion loop of calculateOverlapLayout
(lines 400-413): scan all seances in sorted order, adding every
not-yet-assigned one that overlaps some member of the current group. -/
def expandPass (ss : List Seance) (assigned : List Nat) (group : List Nat) :
    List Nat → List Nat
  | [] => group
  | j :: order =>
    if j ∈ assigned ∨ j ∈ group then expandPass ss assigned group order
    else if group.any (fun idx => seancesOverlap (getS ss idx) (getS ss j)) then
      expandPass ss assigned (group ++ [j]) order
    else expandPass ss assigned group order

/-- The while (expanded) loop of calculateOverlapLayout (lines 397-414):
repeat expansion passes until one adds nothing.  The source loop needs no
fuel; here one unit of fuel per candidate plus one suffices because every
non-final pass strictly grows the group. -/
def expandLoop (ss : List Seance) (assigned order : List Nat) :
    Nat → List Nat → List Nat
  | 0, group => group
  | fuel + 1, group =>
    let g := expandPass ss assigned group order
    if g.length = group.length then group else expandLoop ss assigned order fuel g

/-- First-fit placement of one seance (lines 422-439): put idx into the
first column none of whose members overlaps it, or open a new column. -/
def placeOne (ss : List Seance) (cols : List (List Nat)) (idx : Nat) :
    List (List Nat) :=
  match cols with
  | [] => [[idx]]
  | c :: rest =>
    if c.all (fun e => !seancesOverlap (getS ss idx) (getS ss e)) then
      (c ++ [idx]) :: rest
    else
      c :: placeOne ss rest idx

/-- Greedy column assignment for one group (lines 416-440): sort the
group by start time, then place each member first-fit. -/
def assignColumns (ss : List Seance) (group : List Nat) : List (List Nat) :=
  (sortByStart ss group).foldl (placeOne ss) []

/-- The transitive overlap group grown from seed i (lines 392-414): start
from [i] and run expansion passes to a fixed point. -/
def expandGroup (ss : List Seance) (assigned order : List Nat) (i : Nat) :
    List Nat :=
  expandLoop ss assigned order (order.length + 1) [i]

/-- Outer loop of calculateOverlapLayout (lines 389-449): for each seance
in sorted order that is not yet assigned, expand its transitive overlap
group, assign columns inside it, and record the members of the group as
assigned. -/
def calcGroupsAux (ss : List Seance) (order : List Nat) :
    List Nat → List Nat → List (List (List Nat))
  | [], _ => []
  | i :: rest, assigned =>
    if i ∈ assigned then calcGroupsAux ss order rest assigned
    else
      assignColumns ss (expandGroup ss assigned order i) ::
        calcGroupsAux ss order rest (assigned ++ expandGroup ss assigned order i)

/-- Map-insertion sequence of lines 443-448: for each column col and each
idx in it, layouts.set(idx, \x7b column: col, totalColumns \x7d). -/
def layoutEntriesAux (n : Nat) : Nat → List (List Nat) → List (Nat × SeanceLayout)
  | _, [] => []
  | ci, c :: cols =>
    c.map (fun idx => (idx, ⟨ci, n⟩)) ++ layoutEntriesAux n (ci + 1) cols

/-- Layout entries of one group: column index paired with the total
column count of the group. -/
def layoutEntries (cols : List (List Nat)) : List (Nat × SeanceLayout) :=
  layoutEntriesAux cols.length 0 cols

/-- Source: calculateOverlapLayout in src/lib/schedule-utils.ts, lines
375-452.  The returned Map from original seance index to SeanceLayout is
modelled as the association list of its insertions (each key is inserted
at most once, as proved below). -/
def calculateOverlapLayout (ss : List Seance) : List (Nat × SeanceLayout) :=
  let order := sortByStart ss (List.range ss.length)
  ((calcGroupsAux ss order order []).map layoutEntries).flatten

/-- Map.get on the modelled layout map. -/
def layoutFind (l : List (Nat × SeanceLayout)) (i : Nat) : Option SeanceLayout :=
  (l.find? (fun p => p.1 == i)).map (fun p => p.2)

/-! Specification-side notions used by the claims (not part of the
source): the overlap relation on indices, its transitive closure
(overlap groups are its connected components), and the number of events
of a group simultaneously active at an instant. -/

/-- Two in-range indices whose seances overlap. -/
def overlapRel (ss : List Seance) (a b : Nat) : Prop :=
  a < ss.length ∧ b < ss.length ∧ seancesOverlap (getS ss a) (getS ss b) = true

/-- Connectivity under the transitive overlap relation; the claims call
its equivalence classes maximal overlap groups. -/
def OverlapConnected (ss : List Seance) : Nat → Nat → Prop :=
  Relation.ReflTransGen (overlapRel ss)

/-- Event i is active at instant t (half-open interval semantics). -/
def activeAt (ss : List Seance) (t i : Nat) : Bool :=
  decide ((getS ss i).heureDebut ≤ t) && decide (t < (getS ss i).heureFin)

/-- Number of members of comp active at instant t. -/
def activeCount (ss : List Seance) (comp : List Nat) (t : Nat) : Nat :=
  (comp.filter (activeAt ss t)).length

/-- Largest end time appearing in the input. -/
def maxEndTime (ss : List Seance) : Nat := ss.foldr (fun s m => max s.heureFin m) 0

/-- Maximum number of members of comp simultaneously active at any single
instant (no event is active at or after maxEndTime, so scanning the
instants below maxEndTime + 1 covers every instant). -/
def maxSimultaneous (ss : List Seance) (comp : List Nat) : Nat :=
  ((List.range (maxEndTime ss + 1)).map (activeCount ss comp)).foldr max 0

/-- Overlap of the seances at two indices, as a Bool. -/
def ovB (ss : List Seance) (a b : Nat) : Bool :=
  seancesOverlap (getS ss a) (getS ss b)

/-- Clique in the overlap graph: a duplicate-free list of indices whose
seances pairwise overlap. -/
def IsCliqueL (ss : List Seance) (L : List Nat) : Prop :=
  L.Nodup ∧ L.Pairwise (fun a b => ovB ss a b = true)

/-! Basic lemmas. -/

theorem seancesOverlap_symm (a b : Seance) :
    seancesOverlap a b = seancesOverlap b a := by
  simp only [seancesOverlap]
  exact Bool.and_comm _ _

theorem ovB_symm (ss : List Seance) (a b : Nat) : ovB ss a b = ovB ss b a :=
  seancesOverlap_symm _ _

theorem nodup_length_le {l₁ l₂ : List Nat} (h₁ : l₁.Nodup)
    (h₂ : ∀ x ∈ l₁, x ∈ l₂) : l₁.length ≤ l₂.length := by
  calc l₁.length = l₁.toFinset.card := (List.toFinset_card_of_nodup h₁).symm
    _ ≤ l₂.toFinset.card := by
        apply Finset.card_le_card
        intro x hx
        rw [List.mem_toFinset] at hx ⊢
        exact h₂ x hx
    _ ≤ l₂.length := l₂.toFinset_card_le

theorem pairwise_of_forall_mem {R : Nat → Nat → Prop} :
    ∀ {l : List Nat}, l.Nodup → (∀ x ∈ l, ∀ y ∈ l, x ≠ y → R x y) →
      l.Pairwise R
  | [], _, _ => List.Pairwise.nil
  | x :: l, hnd, hR => by
    rw [List.nodup_cons] at hnd
    refine List.Pairwise.cons (fun y hy => ?_) ?_
    · exact hR x (by simp) y (by simp [hy]) (fun hxy => hnd.1 (hxy ▸ hy))
    · exact pairwise_of_forall_mem hnd.2
        (fun a ha b hb hab => hR a (by simp [ha]) b (by simp [hb]) hab)

theorem max_by_start (ss : List Seance) :
    ∀ (l : List Nat), l ≠ [] →
      ∃ a ∈ l, ∀ b ∈ l, (getS ss b).heureDebut ≤ (getS ss a).heureDebut
  | [], h => absurd rfl h
  | [x], _ => ⟨x, by simp⟩
  | x :: y :: l, _ => by
    obtain ⟨a, ha, hmax⟩ := max_by_start ss (y :: l) (by simp)
    by_cases hc : (getS ss a).heureDebut ≤ (getS ss x).heureDebut
    · exact ⟨x, by simp, by
        intro b hb
        rcases List.mem_cons.1 hb with rfl | hb
        · exact Nat.le_refl _
        · exact Nat.le_trans (hmax b hb) hc⟩
    · exact ⟨a, by simp [ha], by
        intro b hb
        rcases List.mem_cons.1 hb with rfl | hb
        · exact Nat.le_of_lt (Nat.lt_of_not_le hc)
        · exact hmax b hb⟩

/-! Lemmas about the greedy first-fit column assignment. -/

theorem placeOne_flatten_perm (ss : List Seance) (idx : Nat) :
    ∀ (cols : List (List Nat)),
      (placeOne ss cols idx).flatten.Perm (idx :: cols.flatten)
  | [] => by simp [placeOne]
  | c :: rest => by
    rw [placeOne]
    by_cases h : c.all (fun e => !seancesOverlap (getS ss idx) (getS ss e)) = true
    · rw [if_pos h]
      simp only [List.flatten_cons, List.append_assoc, List.singleton_append]
      exact List.perm_middle
    · rw [if_neg h]
      simp only [List.flatten_cons]
      exact ((placeOne_flatten_perm ss idx rest).append_left c).trans
        List.perm_middle

theorem placeOne_pairwise (ss : List Seance) (idx : Nat) :
    ∀ (cols : List (List Nat)),
      (∀ c ∈ cols, c.Pairwise (fun a b => ovB ss a b = false)) →
      ∀ c ∈ placeOne ss cols idx, c.Pairwise (fun a b => ovB ss a b = false)
  | [], _, c, hc => by
    simp only [placeOne, List.mem_singleton] at hc
    subst hc
    simp
  | c0 :: rest, hall, c, hc => by
    rw [placeOne] at hc
    by_cases h : c0.all (fun e => !seancesOverlap (getS ss idx) (getS ss e)) = true
    · rw [if_pos h] at hc
      rcases List.mem_cons.1 hc with rfl | hmem
      · rw [List.pairwise_append]
        refine ⟨hall c0 (by simp), by simp, ?_⟩
        intro a ha b hb
        rcases List.mem_singleton.1 hb with rfl
        have hno := List.all_eq_true.1 h a ha
        simp only [Bool.not_eq_eq_eq_not, Bool.not_true] at hno
        rw [ovB_symm]
        exact hno
      · exact hall c (by simp [hmem])
    · rw [if_neg h] at hc
      rcases List.mem_cons.1 hc with rfl | hmem
      · exact hall c (by simp)
      · exact placeOne_pairwise ss idx rest
          (fun d hd => hall d (by simp [hd])) c hmem

theorem placeOne_length (ss : List Seance) (idx : Nat) :
    ∀ (cols : List (List Nat)),
      (placeOne ss cols idx).length = cols.length ∨
      ((placeOne ss cols idx).length = cols.length + 1 ∧
        ∀ c ∈ cols, ∃ e ∈ c, seancesOverlap (getS ss idx) (getS ss e) = true)
  | [] => by
    right
    simp [placeOne]
  | c0 :: rest => by
    rw [placeOne]
    by_cases h : c0.all (fun e => !seancesOverlap (getS ss idx) (getS ss e)) = true
    · left
      rw [if_pos h]
      simp
    · rw [if_neg h]
      rcases placeOne_length ss idx rest with h1 | ⟨h1, h2⟩
      · left
        simp [h1]
      · right
        refine ⟨by simp [h1], ?_⟩
        intro c hc
        rcases List.mem_cons.1 hc with rfl | hmem
        · rw [List.all_eq_true] at h
          push_neg at h
          obtain ⟨e, he, hov⟩ := h
          refine ⟨e, he, ?_⟩
          simpa using hov
        · exact h2 c hmem

theorem exists_transversal {P : Nat → Prop} :
    ∀ {cols : List (List Nat)}, (∀ c ∈ cols, ∃ e ∈ c, P e) →
      ∃ B, List.Forall₂ (fun b c => b ∈ c ∧ P b) B cols
  | [], _ => ⟨[], List.Forall₂.nil⟩
  | c :: rest, h => by
    obtain ⟨e, he, hPe⟩ := h c (by simp)
    obtain ⟨B, hB⟩ := exists_transversal (fun d hd => h d (List.mem_cons_of_mem _ hd))
    exact ⟨e :: B, List.Forall₂.cons ⟨he, hPe⟩ hB⟩

theorem forall₂_mem_flatten {P : Nat → Prop} :
    ∀ {B : List Nat} {cols : List (List Nat)},
      List.Forall₂ (fun b c => b ∈ c ∧ P b) B cols →
      ∀ b ∈ B, b ∈ cols.flatten
  | _, _, List.Forall₂.nil, b, hb => by simp at hb
  | _, _, List.Forall₂.cons h hrest, b, hb => by
    rcases List.mem_cons.1 hb with rfl | hb
    · exact List.mem_flatten.2 ⟨_, by simp, h.1⟩
    · have := forall₂_mem_flatten hrest b hb
      rw [List.mem_flatten] at this ⊢
      obtain ⟨l, hl, hbl⟩ := this
      exact ⟨l, by simp [hl], hbl⟩

theorem transversal_nodup {P : Nat → Prop} {B : List Nat}
    {cols : List (List Nat)}
    (hB : List.Forall₂ (fun b c => b ∈ c ∧ P b) B cols) :
    cols.flatten.Nodup → B.Nodup := by
  induction hB with
  | nil => intro _; exact List.Pairwise.nil
  | cons h hrest ih =>
    intro hnd
    rw [List.flatten_cons, List.nodup_append] at hnd
    refine List.Pairwise.cons (fun y hy => ?_) (ih hnd.2.1)
    intro hby
    exact hnd.2.2 h.1 (hby ▸ forall₂_mem_flatten hrest y hy)

/-- Invariant carried through the greedy fold: the columns partition the
processed elements, each column is overlap-free, and a clique of the
processed elements as large as the number of columns exists. -/
def GreedyInv (ss : List Seance) (cols : List (List Nat)) (done : List Nat) :
    Prop :=
  cols.flatten.Perm done ∧
  (∀ c ∈ cols, c.Pairwise (fun a b => ovB ss a b = false)) ∧
  ∃ L, IsCliqueL ss L ∧ (∀ x ∈ L, x ∈ done) ∧ L.length = cols.length

theorem forall₂_prop {P : Nat → Prop} :
    ∀ {B : List Nat} {cols : List (List Nat)},
      List.Forall₂ (fun b c => b ∈ c ∧ P b) B cols → ∀ b ∈ B, P b
  | _, _, List.Forall₂.nil, b, hb => by simp at hb
  | _, _, List.Forall₂.cons h hrest, b, hb => by
    rcases List.mem_cons.1 hb with rfl | hb
    · exact h.2
    · exact forall₂_prop hrest b hb

theorem ovB_true_iff (ss : List Seance) (a b : Nat) :
    ovB ss a b = true ↔
      (getS ss a).heureDebut < (getS ss b).heureFin ∧
      (getS ss b).heureDebut < (getS ss a).heureFin := by
  simp [ovB, seancesOverlap]

theorem greedy_fold_inv (ss : List Seance) :
    ∀ (todo done : List Nat) (cols : List (List Nat)),
      (done ++ todo).Pairwise (startLE ss) → (done ++ todo).Nodup →
      GreedyInv ss cols done →
      GreedyInv ss (todo.foldl (placeOne ss) cols) (done ++ todo)
  | [], done, cols, _, _, hinv => by simpa using hinv
  | idx :: todo, done, cols, hsor, hnd, hinv => by
    obtain ⟨hperm, hpw, L, hL, hLdone, hLlen⟩ := hinv
    have hdone_le : ∀ d ∈ done,
        (getS ss d).heureDebut ≤ (getS ss idx).heureDebut := by
      intro d hd
      exact (List.pairwise_append.1 hsor).2.2 d hd idx (by simp)
    have hidx_nd : idx ∉ done := by
      rw [List.nodup_append] at hnd
      intro hmem
      exact hnd.2.2 hmem (by simp)
    have step : GreedyInv ss (placeOne ss cols idx) (done ++ [idx]) := by
      refine ⟨?_, placeOne_pairwise ss idx cols hpw, ?_⟩
      · exact (placeOne_flatten_perm ss idx cols).trans
          ((hperm.cons idx).trans (List.perm_append_singleton idx done).symm)
      · rcases placeOne_length ss idx cols with hlen | ⟨hlen, hblock⟩
        · exact ⟨L, hL, fun x hx => by simp [hLdone x hx], by rw [hlen, hLlen]⟩
        · obtain ⟨B, hB⟩ := exists_transversal
            (P := fun e => seancesOverlap (getS ss idx) (getS ss e) = true) hblock
          have hBmem : ∀ b ∈ B, b ∈ done := fun b hb =>
            hperm.mem_iff.1 (forall₂_mem_flatten hB b hb)
          have hBov : ∀ b ∈ B, seancesOverlap (getS ss idx) (getS ss b) = true :=
            forall₂_prop hB
          have hBnd : B.Nodup :=
            transversal_nodup hB (hperm.symm.nodup (hnd.sublist (by simp)))
          have hBle : ∀ b ∈ B,
              (getS ss b).heureDebut ≤ (getS ss idx).heureDebut :=
            fun b hb => hdone_le b (hBmem b hb)
          refine ⟨B ++ [idx], ⟨?_, ?_⟩, ?_, ?_⟩
          · rw [List.nodup_append]
            refine ⟨hBnd, by simp, ?_⟩
            intro b hb h2
            obtain rfl := List.mem_singleton.1 h2
            exact hidx_nd (hBmem _ hb)
          · rw [List.pairwise_append]
            refine ⟨?_, by simp, ?_⟩
            · refine pairwise_of_forall_mem hBnd ?_
              intro x hx y hy _
              have h1 := (ovB_true_iff ss idx x).1 (hBov x hx)
              have h2 := (ovB_true_iff ss idx y).1 (hBov y hy)
              have h3 := hBle x hx
              have h4 := hBle y hy
              rw [ovB_true_iff]
              omega
            · intro a ha y hy
              rw [List.mem_singleton] at hy
              show ovB ss a y = true
              rw [hy, ovB_symm]
              exact hBov a ha
          · intro x hx
            rcases List.mem_append.1 hx with hx | hx
            · exact List.mem_append.2 (Or.inl (hBmem x hx))
            · exact List.mem_append.2 (Or.inr hx)
          · rw [List.length_append, hB.length_eq, hlen]
            simp
    have hrec := greedy_fold_inv ss todo (done ++ [idx]) (placeOne ss cols idx)
      (by rwa [List.append_assoc, List.singleton_append])
      (by rwa [List.append_assoc, List.singleton_append]) step
    rw [List.append_assoc, List.singleton_append] at hrec
    simpa using hrec

theorem ovB_true_symm (ss : List Seance) : Symmetric (fun a b => ovB ss a b = true) := by
  intro a b h
  rw [ovB_symm]
  exact h

theorem ovB_false_symm (ss : List Seance) : Symmetric (fun a b => ovB ss a b = false) := by
  intro a b h
  rw [ovB_symm]
  exact h

theorem sortByStart_perm (ss : List Seance) (l : List Nat) :
    (sortByStart ss l).Perm l :=
  List.perm_insertionSort _ l

theorem sortByStart_sorted (ss : List Seance) (l : List Nat) :
    (sortByStart ss l).Pairwise (startLE ss) :=
  List.sorted_insertionSort _ l

/-- Full specification of the greedy assignment of one group: the columns
partition the group, columns are overlap-free, and a clique of the
group whose size matches the column count exists. -/
theorem assignColumns_spec (ss : List Seance) (G : List Nat) (hnd : G.Nodup) :
    (assignColumns ss G).flatten.Perm G ∧
    (∀ c ∈ assignColumns ss G, c.Pairwise (fun a b => ovB ss a b = false)) ∧
    ∃ L, IsCliqueL ss L ∧ (∀ x ∈ L, x ∈ G) ∧
      L.length = (assignColumns ss G).length := by
  have h0 : GreedyInv ss [] [] :=
    ⟨by simp, by simp, [], ⟨List.Pairwise.nil, List.Pairwise.nil⟩, by simp, rfl⟩
  have h := greedy_fold_inv ss (sortByStart ss G) [] []
    (by simpa using sortByStart_sorted ss G)
    (by simpa using (sortByStart_perm ss G).symm.nodup hnd) h0
  simp only [List.nil_append] at h
  obtain ⟨hperm, hpw, L, hL, hmem, hlen⟩ := h
  exact ⟨hperm.trans (sortByStart_perm ss G), hpw,
    L, hL, fun x hx => (sortByStart_perm ss G).mem_iff.1 (hmem x hx), hlen⟩

/-- Any clique whose members live in overlap-free columns has at most as
many members as there are columns. -/
theorem clique_le_cols (ss : List Seance) :
    ∀ (cols : List (List Nat)),
      (∀ c ∈ cols, c.Pairwise (fun a b => ovB ss a b = false)) →
      ∀ L, IsCliqueL ss L → (∀ x ∈ L, x ∈ cols.flatten) →
        L.length ≤ cols.length
  | [], _, L, _, hmem => by
    have : L = [] := List.eq_nil_iff_forall_not_mem.2 (fun a ha => by
      simpa using hmem a ha)
    simp [this]
  | c :: cols, hpw, L, hL, hmem => by
    have hsplit : (L.filter (fun x => decide (x ∈ c))).length +
        (L.filter (fun x => !decide (x ∈ c))).length = L.length := by
      have := (List.filter_append_perm (fun x => decide (x ∈ c)) L).length_eq
      simpa using this
    have h1 : (L.filter (fun x => decide (x ∈ c))).length ≤ 1 := by
      rcases hml : L.filter (fun x => decide (x ∈ c)) with _ | ⟨x, _ | ⟨y, l⟩⟩
      · simp
      · simp
      · exfalso
        have hnd' : (x :: y :: l).Nodup := hml ▸ hL.1.filter _
        have hx : x ∈ L ∧ x ∈ c := by
          have hxm : x ∈ L.filter (fun x => decide (x ∈ c)) := by rw [hml]; simp
          simpa using List.mem_filter.1 hxm
        have hy : y ∈ L ∧ y ∈ c := by
          have hym : y ∈ L.filter (fun x => decide (x ∈ c)) := by rw [hml]; simp
          simpa using List.mem_filter.1 hym
        have hxy : x ≠ y := by
          rw [List.nodup_cons] at hnd'
          exact fun h => hnd'.1 (h ▸ by simp)
        have hov : ovB ss x y = true :=
          hL.2.forall (ovB_true_symm ss) hx.1 hy.1 hxy
        have hnov : ovB ss x y = false :=
          (hpw c (by simp)).forall (ovB_false_symm ss) hx.2 hy.2 hxy
        rw [hov] at hnov
        exact absurd hnov (by simp)
    have h2 : (L.filter (fun x => !decide (x ∈ c))).length ≤ cols.length := by
      refine clique_le_cols ss cols (fun d hd => hpw d (by simp [hd]))
        _ ⟨hL.1.filter _, hL.2.filter _⟩ ?_
      intro x hx
      have := List.mem_filter.1 hx
      have hxm := hmem x this.1
      rw [List.flatten_cons, List.mem_append] at hxm
      rcases hxm with h | h
      · exact absurd h (by simpa using this.2)
      · exact h
    calc L.length = _ + _ := hsplit.symm
      _ ≤ 1 + cols.length := Nat.add_le_add h1 h2
      _ = (c :: cols).length := by simp [Nat.add_comm]

/-! Lemmas about the group expansion loop. -/

theorem expandPass_append (ss : List Seance) (assigned : List Nat) :
    ∀ (order group : List Nat),
      ∃ ex, expandPass ss assigned group order = group ++ ex
  | [], group => ⟨[], by simp [expandPass]⟩
  | j :: order, group => by
    rw [expandPass]
    by_cases h1 : j ∈ assigned ∨ j ∈ group
    · rw [if_pos h1]
      exact expandPass_append ss assigned order group
    · rw [if_neg h1]
      by_cases h2 : (group.any fun idx =>
          seancesOverlap (getS ss idx) (getS ss j)) = true
      · rw [if_pos h2]
        obtain ⟨ex, hex⟩ := expandPass_append ss assigned order (group ++ [j])
        exact ⟨j :: ex, by simp [hex]⟩
      · rw [if_neg h2]
        exact expandPass_append ss assigned order group

theorem expandPass_mem (ss : List Seance) (assigned : List Nat) :
    ∀ (order group : List Nat), ∀ x ∈ expandPass ss assigned group order,
      x ∈ group ∨ (x ∈ order ∧ x ∉ assigned)
  | [], group, x, hx => by
    rw [expandPass] at hx
    exact Or.inl hx
  | j :: order, group, x, hx => by
    rw [expandPass] at hx
    by_cases h1 : j ∈ assigned ∨ j ∈ group
    · rw [if_pos h1] at hx
      rcases expandPass_mem ss assigned order group x hx with h | ⟨h2, h3⟩
      · exact Or.inl h
      · exact Or.inr ⟨by simp [h2], h3⟩
    · rw [if_neg h1] at hx
      push_neg at h1
      by_cases h2 : (group.any fun idx =>
          seancesOverlap (getS ss idx) (getS ss j)) = true
      · rw [if_pos h2] at hx
        rcases expandPass_mem ss assigned order (group ++ [j]) x hx with h | ⟨h3, h4⟩
        · rcases List.mem_append.1 h with h | h
          · exact Or.inl h
          · rcases List.mem_singleton.1 h with rfl
            exact Or.inr ⟨by simp, h1.1⟩
        · exact Or.inr ⟨by simp [h3], h4⟩
      · rw [if_neg h2] at hx
        rcases expandPass_mem ss assigned order group x hx with h | ⟨h3, h4⟩
        · exact Or.inl h
        · exact Or.inr ⟨by simp [h3], h4⟩

theorem expandPass_nodup (ss : List Seance) (assigned : List Nat) :
    ∀ (order group : List Nat), group.Nodup →
      (expandPass ss assigned group order).Nodup
  | [], group, h => by rwa [expandPass]
  | j :: order, group, h => by
    rw [expandPass]
    by_cases h1 : j ∈ assigned ∨ j ∈ group
    · rw [if_pos h1]
      exact expandPass_nodup ss assigned order group h
    · rw [if_neg h1]
      push_neg at h1
      by_cases h2 : (group.any fun idx =>
          seancesOverlap (getS ss idx) (getS ss j)) = true
      · rw [if_pos h2]
        refine expandPass_nodup ss assigned order (group ++ [j]) ?_
        rw [List.nodup_append]
        refine ⟨h, by simp, ?_⟩
        intro a ha h2
        obtain rfl := List.mem_singleton.1 h2
        exact h1.2 ha
      · rw [if_neg h2]
        exact expandPass_nodup ss assigned order group h

theorem expandPass_conn (ss : List Seance) (assigned : List Nat) (seed : Nat) :
    ∀ (order group : List Nat),
      (∀ x ∈ group, OverlapConnected ss seed x) →
      (∀ x ∈ group, x < ss.length) →
      (∀ j ∈ order, j < ss.length) →
      ∀ x ∈ expandPass ss assigned group order, OverlapConnected ss seed x
  | [], group, hconn, _, _, x, hx => by
    rw [expandPass] at hx
    exact hconn x hx
  | j :: order, group, hconn, hblt, holt, x, hx => by
    rw [expandPass] at hx
    by_cases h1 : j ∈ assigned ∨ j ∈ group
    · rw [if_pos h1] at hx
      exact expandPass_conn ss assigned seed order group hconn hblt
        (fun j hj => holt j (by simp [hj])) x hx
    · rw [if_neg h1] at hx
      by_cases h2 : (group.any fun idx =>
          seancesOverlap (getS ss idx) (getS ss j)) = true
      · rw [if_pos h2] at hx
        obtain ⟨idx, hidx, hov⟩ := List.any_eq_true.1 h2
        have hjconn : OverlapConnected ss seed j :=
          (hconn idx hidx).tail ⟨hblt idx hidx, holt j (by simp), hov⟩
        refine expandPass_conn ss assigned seed order (group ++ [j]) ?_ ?_
          (fun j hj => holt j (by simp [hj])) x hx
        · intro y hy
          rcases List.mem_append.1 hy with h | h
          · exact hconn y h
          · obtain rfl := List.mem_singleton.1 h
            exact hjconn
        · intro y hy
          rcases List.mem_append.1 hy with h | h
          · exact hblt y h
          · obtain rfl := List.mem_singleton.1 h
            exact holt y (by simp)
      · rw [if_neg h2] at hx
        exact expandPass_conn ss assigned seed order group hconn hblt
          (fun j hj => holt j (by simp [hj])) x hx

theorem expandPass_fix (ss : List Seance) (assigned : List Nat) :
    ∀ (order group : List Nat), expandPass ss assigned group order = group →
      ∀ j ∈ order, j ∉ assigned → j ∉ group →
        ∀ x ∈ group, seancesOverlap (getS ss x) (getS ss j) = false
  | [], _, _, j, hj, _, _, _, _ => by simp at hj
  | j' :: order, group, heq, j, hj, hja, hjg, x, hx => by
    rw [expandPass] at heq
    by_cases h1 : j' ∈ assigned ∨ j' ∈ group
    · rw [if_pos h1] at heq
      rcases List.mem_cons.1 hj with rfl | hj
      · rcases h1 with h | h
        · exact absurd h hja
        · exact absurd h hjg
      · exact expandPass_fix ss assigned order group heq j hj hja hjg x hx
    · rw [if_neg h1] at heq
      by_cases h2 : (group.any fun idx =>
          seancesOverlap (getS ss idx) (getS ss j')) = true
      · rw [if_pos h2] at heq
        exfalso
        obtain ⟨ex, hex⟩ := expandPass_append ss assigned order (group ++ [j'])
        rw [hex] at heq
        have := congrArg List.length heq
        simp at this
      · rw [if_neg h2] at heq
        rcases List.mem_cons.1 hj with rfl | hj
        · have := List.any_eq_false.1 (Bool.not_eq_true _ ▸ h2) x hx
          simpa using this
        · exact expandPass_fix ss assigned order group heq j hj hja hjg x hx

theorem expandLoop_mem (ss : List Seance) (assigned order : List Nat) :
    ∀ (fuel : Nat) (group : List Nat), ∀ x ∈ expandLoop ss assigned order fuel group,
      x ∈ group ∨ (x ∈ order ∧ x ∉ assigned)
  | 0, group, x, hx => by
    rw [expandLoop] at hx
    exact Or.inl hx
  | fuel + 1, group, x, hx => by
    rw [expandLoop] at hx
    by_cases h : (expandPass ss assigned group order).length = group.length
    · rw [if_pos h] at hx
      exact Or.inl hx
    · rw [if_neg h] at hx
      rcases expandLoop_mem ss assigned order fuel _ x hx with h2 | h2
      · exact expandPass_mem ss assigned order group x h2
      · exact Or.inr h2

theorem expandLoop_super (ss : List Seance) (assigned order : List Nat) :
    ∀ (fuel : Nat) (group : List Nat), ∀ x ∈ group,
      x ∈ expandLoop ss assigned order fuel group
  | 0, group, x, hx => by rwa [expandLoop]
  | fuel + 1, group, x, hx => by
    rw [expandLoop]
    by_cases h : (expandPass ss assigned group order).length = group.length
    · rwa [if_pos h]
    · rw [if_neg h]
      obtain ⟨ex, hex⟩ := expandPass_append ss assigned order group
      refine expandLoop_super ss assigned order fuel _ x ?_
      rw [hex]
      exact List.mem_append.2 (Or.inl hx)

theorem expandLoop_nodup (ss : List Seance) (assigned order : List Nat) :
    ∀ (fuel : Nat) (group : List Nat), group.Nodup →
      (expandLoop ss assigned order fuel group).Nodup
  | 0, group, h => by rwa [expandLoop]
  | fuel + 1, group, h => by
    rw [expandLoop]
    by_cases hc : (expandPass ss assigned group order).length = group.length
    · rwa [if_pos hc]
    · rw [if_neg hc]
      exact expandLoop_nodup ss assigned order fuel _
        (expandPass_nodup ss assigned order group h)

theorem expandLoop_conn (ss : List Seance) (assigned order : List Nat) (seed : Nat)
    (holt : ∀ j ∈ order, j < ss.length) :
    ∀ (fuel : Nat) (group : List Nat),
      (∀ x ∈ group, OverlapConnected ss seed x) →
      (∀ x ∈ group, x < ss.length) →
      ∀ x ∈ expandLoop ss assigned order fuel group, OverlapConnected ss seed x
  | 0, group, hconn, _, x, hx => by
    rw [expandLoop] at hx
    exact hconn x hx
  | fuel + 1, group, hconn, hblt, x, hx => by
    rw [expandLoop] at hx
    by_cases hc : (expandPass ss assigned group order).length = group.length
    · rw [if_pos hc] at hx
      exact hconn x hx
    · rw [if_neg hc] at hx
      refine expandLoop_conn ss assigned order seed holt fuel _ ?_ ?_ x hx
      · exact expandPass_conn ss assigned seed order group hconn hblt holt
      · intro y hy
        rcases expandPass_mem ss assigned order group y hy with h | h
        · exact hblt y h
        · exact holt y h.1

theorem expandLoop_fix (ss : List Seance) (assigned order : List Nat)
    (hond : order.Nodup) :
    ∀ (fuel : Nat) (group : List Nat), group.Nodup →
      (∀ x ∈ group, x ∈ order) →
      order.length + 1 ≤ fuel + group.length →
      expandPass ss assigned (expandLoop ss assigned order fuel group) order =
        expandLoop ss assigned order fuel group
  | 0, group, hnd, hsub, hfuel => by
    exfalso
    have := nodup_length_le hnd hsub
    omega
  | fuel + 1, group, hnd, hsub, hfuel => by
    rw [expandLoop]
    by_cases hc : (expandPass ss assigned group order).length = group.length
    · rw [if_pos hc]
      obtain ⟨ex, hex⟩ := expandPass_append ss assigned order group
      rw [hex] at hc ⊢
      have : ex = [] := by
        rw [List.length_append] at hc
        have : ex.length = 0 := by omega
        exact List.length_eq_zero.1 this
      rw [this, List.append_nil]
    · rw [if_neg hc]
      obtain ⟨ex, hex⟩ := expandPass_append ss assigned order group
      refine expandLoop_fix ss assigned order hond fuel _
        (expandPass_nodup ss assigned order group hnd) ?_ ?_
      · intro x hx
        rcases expandPass_mem ss assigned order group x hx with h | h
        · exact hsub x h
        · exact h.1
      · rw [hex] at hc ⊢
        rw [List.length_append] at hc ⊢
        have : ex.length ≠ 0 := fun h0 => hc (by omega)
        omega

/-- The seances already assigned to earlier groups never overlap any
still-unassigned seance: the invariant making groups maximal. -/
def ClosedAssigned (ss : List Seance) (order assigned : List Nat) : Prop :=
  ∀ a ∈ assigned, ∀ j ∈ order, j ∉ assigned →
    seancesOverlap (getS ss a) (getS ss j) = false

theorem expandGroup_spec (ss : List Seance) (assigned order : List Nat) (i : Nat)
    (hond : order.Nodup) (hio : i ∈ order) (hia : i ∉ assigned)
    (holt : ∀ j ∈ order, j < ss.length) :
    i ∈ expandGroup ss assigned order i ∧
    (expandGroup ss assigned order i).Nodup ∧
    (∀ x ∈ expandGroup ss assigned order i, x ∈ order ∧ x ∉ assigned) ∧
    (∀ x ∈ expandGroup ss assigned order i, OverlapConnected ss i x) ∧
    (∀ j ∈ order, j ∉ assigned → j ∉ expandGroup ss assigned order i →
      ∀ x ∈ expandGroup ss assigned order i,
        seancesOverlap (getS ss x) (getS ss j) = false) := by
  refine ⟨expandLoop_super ss assigned order _ [i] i (by simp),
    expandLoop_nodup ss assigned order _ [i] (by simp), ?_, ?_, ?_⟩
  · intro x hx
    rcases expandLoop_mem ss assigned order _ [i] x hx with h | h
    · obtain rfl := List.mem_singleton.1 h
      exact ⟨hio, hia⟩
    · exact ⟨h.1, h.2⟩
  · refine expandLoop_conn ss assigned order i holt _ [i] ?_ ?_
    · intro x hx
      obtain rfl := List.mem_singleton.1 hx
      exact Relation.ReflTransGen.refl
    · intro x hx
      obtain rfl := List.mem_singleton.1 hx
      exact holt x hio
  · intro j hj hja hjg x hx
    have hfix := expandLoop_fix ss assigned order hond (order.length + 1) [i]
      (by simp) (by simpa using hio) (by simp)
    exact expandPass_fix ss assigned order _ hfix j hj hja hjg x hx

theorem expandGroup_complete (ss : List Seance) (assigned order : List Nat)
    (i : Nat) (hond : order.Nodup) (hio : i ∈ order) (hia : i ∉ assigned)
    (holt : ∀ j ∈ order, j < ss.length)
    (hall : ∀ j, j < ss.length → j ∈ order)
    (hcl : ClosedAssigned ss order assigned) :
    ∀ j, OverlapConnected ss i j → j ∈ expandGroup ss assigned order i := by
  obtain ⟨hseed, _, hmem, _, hclosed⟩ :=
    expandGroup_spec ss assigned order i hond hio hia holt
  intro j hconn
  induction hconn with
  | refl => exact hseed
  | @tail b c hab hbc ih =>
    obtain ⟨hbn, hcn, hov⟩ := hbc
    have hcord : c ∈ order := hall c hcn
    have hbord := hmem b ih
    by_cases hca : c ∈ assigned
    · exfalso
      have := hcl c hca b hbord.1 hbord.2
      rw [seancesOverlap_symm] at this
      rw [this] at hov
      exact absurd hov (by simp)
    · by_cases hcg : c ∈ expandGroup ss assigned order i
      · exact hcg
      · exfalso
        have := hclosed c hcord hca hcg b ih
        rw [this] at hov
        exact absurd hov (by simp)

/-- Everything proved about the column layout of one finished group. -/
def GroupOut (ss : List Seance) (cols : List (List Nat)) : Prop :=
  cols.flatten.Nodup ∧
  (∀ c ∈ cols, c.Pairwise (fun a b => ovB ss a b = false)) ∧
  (∃ L, IsCliqueL ss L ∧ (∀ x ∈ L, x ∈ cols.flatten) ∧
    L.length = cols.length) ∧
  (∃ seed, seed < ss.length ∧
    ∀ j, j ∈ cols.flatten ↔ (j < ss.length ∧ OverlapConnected ss seed j))

theorem calcGroupsAux_spec (ss : List Seance) (order : List Nat)
    (hond : order.Nodup) (hordiff : ∀ j, j ∈ order ↔ j < ss.length) :
    ∀ (rest assigned : List Nat),
      (∀ x ∈ rest, x ∈ order) →
      (∀ x ∈ order, x ∉ assigned → x ∈ rest) →
      ClosedAssigned ss order assigned →
      ((calcGroupsAux ss order rest assigned).map List.flatten).flatten.Nodup ∧
      (∀ x, x ∈ ((calcGroupsAux ss order rest assigned).map List.flatten).flatten ↔
        (x ∈ order ∧ x ∉ assigned)) ∧
      (∀ cols ∈ calcGroupsAux ss order rest assigned, GroupOut ss cols)
  | [], assigned, _, hcov, _ => by
    refine ⟨by simp [calcGroupsAux], ?_, by simp [calcGroupsAux]⟩
    intro x
    simp only [calcGroupsAux, List.map_nil, List.flatten_nil,
      List.not_mem_nil, false_iff]
    intro ⟨h1, h2⟩
    exact absurd (hcov x h1 h2) (List.not_mem_nil x)
  | i :: rest, assigned, hsub, hcov, hcl => by
    have holt : ∀ j ∈ order, j < ss.length := fun j hj => (hordiff j).1 hj
    by_cases hia : i ∈ assigned
    · rw [calcGroupsAux, if_pos hia]
      refine calcGroupsAux_spec ss order hond hordiff rest assigned
        (fun x hx => hsub x (by simp [hx])) ?_ hcl
      intro x hx hxa
      rcases List.mem_cons.1 (hcov x hx hxa) with rfl | h
      · exact absurd hia hxa
      · exact h
    · rw [calcGroupsAux, if_neg hia]
      have hio : i ∈ order := hsub i (by simp)
      obtain ⟨hseed, hGnd, hGmem, hGconn, hGclosed⟩ :=
        expandGroup_spec ss assigned order i hond hio hia holt
      have hGcomplete := expandGroup_complete ss assigned order i hond hio hia
        holt (fun j hj => (hordiff j).2 hj) hcl
      obtain ⟨hacperm, hacpw, hacclique⟩ :=
        assignColumns_spec ss (expandGroup ss assigned order i) hGnd
      have hGiff : ∀ j, j ∈ (assignColumns ss (expandGroup ss assigned order i)).flatten ↔
          (j < ss.length ∧ OverlapConnected ss i j) := by
        intro j
        rw [hacperm.mem_iff]
        constructor
        · intro hj
          exact ⟨holt j (hGmem j hj).1, hGconn j hj⟩
        · intro ⟨_, hconn⟩
          exact hGcomplete j hconn
      have hcl' : ClosedAssigned ss order (assigned ++ expandGroup ss assigned order i) := by
        intro a ha j hj hja
        rw [List.mem_append] at ha
        have hja1 : j ∉ assigned := fun h => hja (List.mem_append.2 (Or.inl h))
        have hja2 : j ∉ expandGroup ss assigned order i :=
          fun h => hja (List.mem_append.2 (Or.inr h))
        rcases ha with ha | ha
        · exact hcl a ha j hj hja1
        · exact hGclosed j hj hja1 hja2 a ha
      have hcov' : ∀ x ∈ order, x ∉ assigned ++ expandGroup ss assigned order i →
          x ∈ rest := by
        intro x hx hxa
        have hxa1 : x ∉ assigned := fun h => hxa (List.mem_append.2 (Or.inl h))
        have hxa2 : x ∉ expandGroup ss assigned order i :=
          fun h => hxa (List.mem_append.2 (Or.inr h))
        rcases List.mem_cons.1 (hcov x hx hxa1) with rfl | h
        · exact absurd hseed hxa2
        · exact h
      obtain ⟨ihnd, ihiff, ihgroups⟩ := calcGroupsAux_spec ss order hond hordiff
        rest (assigned ++ expandGroup ss assigned order i)
        (fun x hx => hsub x (by simp [hx])) hcov' hcl'
      refine ⟨?_, ?_, ?_⟩
      · rw [List.map_cons, List.flatten_cons, List.nodup_append]
        refine ⟨hacperm.symm.nodup hGnd, ihnd, ?_⟩
        intro x hx hx2
        have hxG : x ∈ expandGroup ss assigned order i := hacperm.mem_iff.1 hx
        have := (ihiff x).1 hx2
        exact this.2 (List.mem_append.2 (Or.inr hxG))
      · intro x
        rw [List.map_cons, List.flatten_cons, List.mem_append, ihiff x]
        constructor
        · intro h
          rcases h with h | ⟨h1, h2⟩
          · have hxG := hacperm.mem_iff.1 h
            exact ⟨(hGmem x hxG).1, (hGmem x hxG).2⟩
          · exact ⟨h1, fun hc => h2 (List.mem_append.2 (Or.inl hc))⟩
        · intro ⟨h1, h2⟩
          by_cases hxG : x ∈ expandGroup ss assigned order i
          · exact Or.inl (hacperm.mem_iff.2 hxG)
          · refine Or.inr ⟨h1, ?_⟩
            intro hc
            rcases List.mem_append.1 hc with hc | hc
            · exact h2 hc
            · exact hxG hc
      · intro cols hcols
        rcases List.mem_cons.1 hcols with rfl | h
        · refine ⟨hacperm.symm.nodup hGnd, hacpw, ?_, i, holt i hio, hGiff⟩
          obtain ⟨L, hL, hLmem, hLlen⟩ := hacclique
          exact ⟨L, hL, fun x hx => hacperm.mem_iff.2 (hLmem x hx), hLlen⟩
        · exact ihgroups cols h

/-! Lemmas locating an index in the final layout list. -/

theorem layoutEntriesAux_keys (n : Nat) :
    ∀ (ci : Nat) (cols : List (List Nat)),
      (layoutEntriesAux n ci cols).map Prod.fst = cols.flatten
  | _, [] => by simp [layoutEntriesAux]
  | ci, c :: cols => by
    rw [layoutEntriesAux, List.map_append, List.flatten_cons,
      layoutEntriesAux_keys n (ci + 1) cols, List.map_map]
    congr 1
    exact List.map_id _

theorem find?_map_mem (v : SeanceLayout) (j : Nat) :
    ∀ (c : List Nat), j ∈ c →
      List.find? (fun p => p.1 == j) (c.map (fun idx => (idx, v))) = some (j, v)
  | [], h => by simp at h
  | x :: c, h => by
    by_cases hx : x = j
    · subst hx
      simp [List.find?]
    · rcases List.mem_cons.1 h with rfl | h
      · exact absurd rfl hx
      · rw [List.map_cons, List.find?_cons_of_neg _ (by simpa using hx)]
        exact find?_map_mem v j c h

theorem layoutEntriesAux_find_none (n : Nat) (j : Nat) :
    ∀ (ci : Nat) (cols : List (List Nat)), j ∉ cols.flatten →
      List.find? (fun p => p.1 == j) (layoutEntriesAux n ci cols) = none := by
  intro ci cols h
  rw [List.find?_eq_none]
  intro p hp
  have : p.1 ∈ cols.flatten := by
    rw [← layoutEntriesAux_keys n ci cols]
    exact List.mem_map_of_mem Prod.fst hp
  simp only [beq_iff_eq]
  intro hj
  exact h (hj ▸ this)

theorem layoutEntriesAux_find (n : Nat) (j : Nat) :
    ∀ (ci : Nat) (cols : List (List Nat)), j ∈ cols.flatten →
      ∃ k, List.find? (fun p => p.1 == j) (layoutEntriesAux n ci cols) =
        some (j, ⟨ci + k, n⟩) ∧ j ∈ cols.getD k []
  | _, [], h => by simp at h
  | ci, c :: cols, h => by
    rw [layoutEntriesAux]
    by_cases hjc : j ∈ c
    · refine ⟨0, ?_, by simpa using hjc⟩
      rw [List.find?_append, find?_map_mem _ j c hjc]
      simp
    · rw [List.flatten_cons, List.mem_append] at h
      rcases h with h | h
      · exact absurd h hjc
      · obtain ⟨k, hk, hmem⟩ := layoutEntriesAux_find n j (ci + 1) cols h
        refine ⟨k + 1, ?_, by simpa using hmem⟩
        rw [List.find?_append]
        have hnone : List.find? (fun p => p.1 == j)
            (c.map (fun idx => (idx, (⟨ci, n⟩ : SeanceLayout)))) = none := by
          rw [List.find?_eq_none]
          intro p hp
          obtain ⟨idx, hidx, rfl⟩ := List.mem_map.1 hp
          simp only [beq_iff_eq]
          intro hj
          exact hjc (hj ▸ hidx)
        rw [hnone, Option.none_or, hk]
        refine congrArg some ?_
        refine congrArg (Prod.mk j) ?_
        refine congrArg (fun z => SeanceLayout.mk z n) ?_
        omega

theorem groups_find (j : Nat) :
    ∀ (R : List (List (List Nat))), ((R.map List.flatten).flatten).Nodup →
      ∀ cols ∈ R, j ∈ cols.flatten →
      ∃ k, List.find? (fun p => p.1 == j) ((R.map layoutEntries).flatten) =
        some (j, ⟨k, cols.length⟩) ∧ j ∈ cols.getD k []
  | [], _, cols, hc, _ => by simp at hc
  | cols0 :: R, hnd, cols, hc, hj => by
    rw [List.map_cons, List.flatten_cons, List.find?_append]
    rcases List.mem_cons.1 hc with rfl | hc
    · obtain ⟨k, hk, hmem⟩ := layoutEntriesAux_find cols.length j 0 cols hj
      refine ⟨k, ?_, hmem⟩
      rw [layoutEntries, hk]
      simp
    · have hnd' : ((R.map List.flatten).flatten).Nodup := by
        rw [List.map_cons, List.flatten_cons, List.nodup_append] at hnd
        exact hnd.2.1
      have hjt : j ∈ ((R.map List.flatten).flatten) := by
        rw [List.mem_flatten]
        exact ⟨cols.flatten, List.mem_map_of_mem List.flatten hc, hj⟩
      have hj0 : j ∉ cols0.flatten := by
        rw [List.map_cons, List.flatten_cons, List.nodup_append] at hnd
        exact fun h => hnd.2.2 h hjt
      rw [layoutEntries, layoutEntriesAux_find_none cols0.length j 0 cols0 hj0,
        Option.none_or]
      exact groups_find j R hnd' cols hc hj

/-! Lemmas about maxSimultaneous. -/

theorem foldr_max_le {l : List Nat} {x : Nat} (hx : x ∈ l) :
    x ≤ l.foldr max 0 := by
  induction l with
  | nil => simp at hx
  | cons y l ih =>
    rcases List.mem_cons.1 hx with rfl | hx
    · exact Nat.le_max_left _ _
    · exact Nat.le_trans (ih hx) (Nat.le_max_right _ _)

theorem foldr_max_cases (l : List Nat) :
    l.foldr max 0 = 0 ∨ l.foldr max 0 ∈ l := by
  induction l with
  | nil => simp
  | cons y l ih =>
    rcases Nat.le_total y (l.foldr max 0) with h | h
    · rcases ih with h0 | hm
      · left
        simp only [List.foldr_cons, h0] at h ⊢
        omega
      · right
        rw [List.foldr_cons, Nat.max_eq_right h]
        exact List.mem_cons_of_mem _ hm
    · right
      rw [List.foldr_cons, Nat.max_eq_left h]
      simp

theorem getS_cases (d : Seance) : ∀ (ss : List Seance) (i : Nat),
    ss.getD i d ∈ ss ∨ ss.getD i d = d
  | [], _ => Or.inr rfl
  | s :: ss, 0 => Or.inl (by simp)
  | s :: ss, i + 1 => by
    rw [List.getD_cons_succ]
    rcases getS_cases d ss i with h | h
    · exact Or.inl (List.mem_cons_of_mem _ h)
    · exact Or.inr h

theorem heureFin_le_maxEndTime : ∀ (ss : List Seance), ∀ s ∈ ss,
    s.heureFin ≤ maxEndTime ss
  | [], s, hs => by simp at hs
  | s0 :: ss, s, hs => by
    rcases List.mem_cons.1 hs with rfl | hs
    · exact Nat.le_max_left _ _
    · exact Nat.le_trans (heureFin_le_maxEndTime ss s hs) (Nat.le_max_right _ _)

theorem activeAt_late (ss : List Seance) (i t : Nat)
    (ht : maxEndTime ss ≤ t) : activeAt ss t i = false := by
  have hle : (getS ss i).heureFin ≤ maxEndTime ss := by
    rcases getS_cases ⟨0, 0⟩ ss i with h | h
    · exact heureFin_le_maxEndTime ss _ h
    · rw [getS, h]
      exact Nat.zero_le _
  simp only [activeAt, Bool.and_eq_false_iff]
  right
  simp only [decide_eq_false_iff_not, Nat.not_lt]
  omega

theorem maxSimultaneous_ge (ss : List Seance) (comp : List Nat) (t : Nat) :
    activeCount ss comp t ≤ maxSimultaneous ss comp := by
  by_cases ht : t < maxEndTime ss + 1
  · exact foldr_max_le (List.mem_map_of_mem _ (List.mem_range.2 ht))
  · have h0 : activeCount ss comp t = 0 := by
      rw [activeCount, List.length_eq_zero, List.filter_eq_nil_iff]
      intro i _
      rw [activeAt_late ss i t (by omega)]
      simp
    rw [h0]
    exact Nat.zero_le _

theorem maxSimultaneous_attained (ss : List Seance) (comp : List Nat) :
    ∃ t, activeCount ss comp t = maxSimultaneous ss comp := by
  rcases foldr_max_cases ((List.range (maxEndTime ss + 1)).map
      (activeCount ss comp)) with h | h
  · refine ⟨maxEndTime ss, ?_⟩
    rw [maxSimultaneous, h, activeCount, List.length_eq_zero,
      List.filter_eq_nil_iff]
    intro i _
    rw [activeAt_late ss i _ (Nat.le_refl _)]
    simp
  · obtain ⟨t, _, ht⟩ := List.mem_map.1 h
    exact ⟨t, ht⟩

/-- Bundled output of the whole layout computation. -/
theorem layout_master (ss : List Seance) :
    ∃ R : List (List (List Nat)),
      calculateOverlapLayout ss = (R.map layoutEntries).flatten ∧
      ((R.map List.flatten).flatten).Nodup ∧
      (∀ x, x ∈ (R.map List.flatten).flatten ↔ x < ss.length) ∧
      (∀ cols ∈ R, GroupOut ss cols) := by
  have hond : (sortByStart ss (List.range ss.length)).Nodup :=
    (sortByStart_perm ss (List.range ss.length)).symm.nodup
      (List.nodup_range _)
  have hordiff : ∀ j, j ∈ sortByStart ss (List.range ss.length) ↔ j < ss.length := by
    intro j
    rw [(sortByStart_perm ss _).mem_iff, List.mem_range]
  obtain ⟨hnd, hiff, hgroups⟩ := calcGroupsAux_spec ss _ hond hordiff
    (sortByStart ss (List.range ss.length)) [] (fun x hx => hx)
    (fun x hx _ => hx) (fun a ha => absurd ha (List.not_mem_nil a))
  refine ⟨calcGroupsAux ss _ (sortByStart ss (List.range ss.length)) [], rfl,
    hnd, ?_, hgroups⟩
  intro x
  rw [hiff x, hordiff x]
  simp

theorem overlapRel_symm (ss : List Seance) : Symmetric (overlapRel ss) := by
  intro a b ⟨ha, hb, hov⟩
  exact ⟨hb, ha, seancesOverlap_symm _ _ ▸ hov⟩

theorem overlapConnected_symm (ss : List Seance) :
    Symmetric (OverlapConnected ss) :=
  Relation.ReflTransGen.symmetric (overlapRel_symm ss)

theorem getD_mem_of_lt (l : List (List Nat)) (n : Nat) (h : n < l.length) :
    l.getD n [] ∈ l := by
  rw [List.getD_eq_getElem l [] h]
  exact List.getElem_mem _

theorem mem_getD_lt {l : List (List Nat)} {n j : Nat}
    (h : j ∈ l.getD n []) : n < l.length := by
  by_contra hn
  rw [List.getD_eq_default l [] (by omega)] at h
  simp at h

theorem getS_mem {ss : List Seance} {i : Nat} (h : i < ss.length) :
    getS ss i ∈ ss := by
  rw [getS, List.getD_eq_getElem _ _ h]
  exact List.getElem_mem _

theorem foldr_max_zero : ∀ (l : List Nat), (∀ x ∈ l, x = 0) →
    l.foldr max 0 = 0
  | [], _ => rfl
  | x :: l, h => by
    rw [List.foldr_cons, foldr_max_zero l (fun y hy => h y (by simp [hy])),
      h x (by simp)]
    rfl

theorem activeAt_true_iff (ss : List Seance) (t i : Nat) :
    activeAt ss t i = true ↔
      ((getS ss i).heureDebut ≤ t ∧ t < (getS ss i).heureFin) := by
  simp [activeAt]

/-! The claims. -/

/-- C7: for every input list of events, the mapping returned by
calculateOverlapLayout contains an assignment for every input index
exactly once (its key sequence is a permutation of 0..n-1), and the
empty input yields an empty mapping. -/
theorem calculateOverlapLayout_totality (ss : List Seance) :
    ((calculateOverlapLayout ss).map Prod.fst).Perm (List.range ss.length) ∧
    calculateOverlapLayout ([] : List Seance) = [] := by
  obtain ⟨R, hlay, hnd, hiff, _⟩ := layout_master ss
  constructor
  · have hkeys : (calculateOverlapLayout ss).map Prod.fst =
        (R.map List.flatten).flatten := by
      rw [hlay, List.map_flatten, List.map_map]
      congr 1
      apply List.map_congr_left
      intro cols _
      show (layoutEntries cols).map Prod.fst = cols.flatten
      rw [layoutEntries]
      exact layoutEntriesAux_keys cols.length 0 cols
    rw [hkeys]
    refine (List.perm_ext_iff_of_nodup hnd (List.nodup_range _)).2 ?_
    intro x
    rw [hiff x, List.mem_range]
  · rfl

set_option maxRecDepth 8000 in
/-- C9: on the three events A 09:00-10:00, B 09:30-10:30, C 10:00-11:00
(in minutes: 540-600, 570-630, 600-660), the layout is A on column 0,
B on column 1, C back on column 0, all with totalColumns 2: C reuses the
column of A because A ends exactly when C starts (half-open intervals). -/
theorem calculateOverlapLayout_scenario_back_to_back :
    layoutFind (calculateOverlapLayout
      [⟨540, 600⟩, ⟨570, 630⟩, ⟨600, 660⟩]) 0 = some ⟨0, 2⟩ ∧
    layoutFind (calculateOverlapLayout
      [⟨540, 600⟩, ⟨570, 630⟩, ⟨600, 660⟩]) 1 = some ⟨1, 2⟩ ∧
    layoutFind (calculateOverlapLayout
      [⟨540, 600⟩, ⟨570, 630⟩, ⟨600, 660⟩]) 2 = some ⟨0, 2⟩ := by
  refine ⟨by decide, by decide, by decide⟩

/-- C4 (amended): a zero- or negative-duration event e (startTime ≥
endTime) overlaps another event b exactly when the interval of b strictly
spans it (b.start < e.end and e.start < b.end); in particular two
degenerate events never overlap, but a degenerate event can share an
overlap group with, and constrain the columns of, an event that strictly
spans it. -/
theorem seancesOverlap_degenerate (a b : Seance)
    (ha : a.heureFin ≤ a.heureDebut) :
    (seancesOverlap a b = true ↔
      (b.heureDebut < a.heureFin ∧ a.heureDebut < b.heureFin)) ∧
    (b.heureFin ≤ b.heureDebut → seancesOverlap a b = false) := by
  constructor
  · simp only [seancesOverlap, Bool.and_eq_true, decide_eq_true_eq]
    omega
  · intro hb
    simp only [seancesOverlap, Bool.and_eq_false_iff, decide_eq_false_iff_not,
      Nat.not_lt]
    omega

/-- Counterexample to C4 as stated: the zero-duration event 10:00-10:00
does overlap 09:00-11:00 under the test in the code, and in the two-event
input it shares an overlap group with it and occupies a second column
(both events get totalColumns 2). -/
theorem seancesOverlap_degenerate_cex :
    seancesOverlap ⟨600, 600⟩ ⟨540, 660⟩ = true ∧
    layoutFind (calculateOverlapLayout [⟨540, 660⟩, ⟨600, 600⟩]) 1 =
      some ⟨1, 2⟩ ∧
    layoutFind (calculateOverlapLayout [⟨540, 660⟩, ⟨600, 600⟩]) 0 =
      some ⟨0, 2⟩ := by
  refine ⟨by decide, by decide, by decide⟩

/-- Witness for the amended C4 at the concrete degenerate pair
(700, 650) and (650, 640). -/
theorem seancesOverlap_degenerate_witness :
    ((⟨700, 650⟩ : Seance).heureFin ≤ (⟨700, 650⟩ : Seance).heureDebut) ∧
    ((seancesOverlap ⟨700, 650⟩ ⟨650, 640⟩ = true ↔
      ((⟨650, 640⟩ : Seance).heureDebut < (⟨700, 650⟩ : Seance).heureFin ∧
        (⟨700, 650⟩ : Seance).heureDebut < (⟨650, 640⟩ : Seance).heureFin)) ∧
    ((⟨650, 640⟩ : Seance).heureFin ≤ (⟨650, 640⟩ : Seance).heureDebut →
      seancesOverlap ⟨700, 650⟩ ⟨650, 640⟩ = false)) :=
  ⟨by decide, seancesOverlap_degenerate ⟨700, 650⟩ ⟨650, 640⟩ (by decide)⟩

/-- C2: any two distinct overlapping events receive different columns. -/
theorem calculateOverlapLayout_overlapping_columns_differ (ss : List Seance)
    (a b : Nat) (hab : a ≠ b) (ha : a < ss.length) (hb : b < ss.length)
    (hov : seancesOverlap (getS ss a) (getS ss b) = true) :
    ∃ la lb, layoutFind (calculateOverlapLayout ss) a = some la ∧
      layoutFind (calculateOverlapLayout ss) b = some lb ∧
      la.column ≠ lb.column := by
  obtain ⟨R, hlay, hnd, hiff, hgroups⟩ := layout_master ss
  have hak : a ∈ (R.map List.flatten).flatten := (hiff a).2 ha
  rw [List.mem_flatten] at hak
  obtain ⟨gl, hgl, hagl⟩ := hak
  rw [List.mem_map] at hgl
  obtain ⟨cols, hcols, rfl⟩ := hgl
  obtain ⟨hfnd, hpw, _, seed, hseedlt, hchar⟩ := hgroups cols hcols
  have hbfl : b ∈ cols.flatten := by
    refine (hchar b).2 ⟨hb, ?_⟩
    exact ((hchar a).1 hagl).2.tail ⟨ha, hb, hov⟩
  obtain ⟨ka, hfa, hmema⟩ := groups_find a R hnd cols hcols hagl
  obtain ⟨kb, hfb, hmemb⟩ := groups_find b R hnd cols hcols hbfl
  refine ⟨⟨ka, cols.length⟩, ⟨kb, cols.length⟩, ?_, ?_, ?_⟩
  · rw [hlay, layoutFind, hfa]
    rfl
  · rw [hlay, layoutFind, hfb]
    rfl
  · show ka ≠ kb
    intro hk
    subst hk
    have hca : cols.getD ka [] ∈ cols := getD_mem_of_lt _ _ (mem_getD_lt hmema)
    have := (hpw _ hca).forall (ovB_false_symm ss) hmema hmemb hab
    rw [show ovB ss a b = seancesOverlap (getS ss a) (getS ss b) from rfl,
      hov] at this
    exact absurd this (by simp)

/-- Witness for C2 at two concrete overlapping events. -/
theorem calculateOverlapLayout_overlapping_columns_differ_witness :
    ((0 : Nat) ≠ 1) ∧ 0 < ([⟨540, 600⟩, ⟨570, 630⟩] : List Seance).length ∧
    1 < ([⟨540, 600⟩, ⟨570, 630⟩] : List Seance).length ∧
    seancesOverlap (getS [⟨540, 600⟩, ⟨570, 630⟩] 0)
      (getS [⟨540, 600⟩, ⟨570, 630⟩] 1) = true ∧
    (∃ la lb,
      layoutFind (calculateOverlapLayout [⟨540, 600⟩, ⟨570, 630⟩]) 0 = some la ∧
      layoutFind (calculateOverlapLayout [⟨540, 600⟩, ⟨570, 630⟩]) 1 = some lb ∧
      la.column ≠ lb.column) :=
  ⟨by decide, by decide, by decide, by decide,
    calculateOverlapLayout_overlapping_columns_differ
      [⟨540, 600⟩, ⟨570, 630⟩] 0 1 (by decide) (by decide) (by decide)
      (by decide)⟩

/-- C1 (amended): when every event has startTime < endTime, all members
of a maximal overlap group (here: any list C enumerating the connected
component of index i under the overlap relation) receive the same
totalColumns, and that value is exactly the maximum number of events of
the group simultaneously active at a single instant. -/
theorem calculateOverlapLayout_totalColumns_eq_maxActive (ss : List Seance)
    (hnorm : ∀ s ∈ ss, s.heureDebut < s.heureFin)
    (i : Nat) (hi : i < ss.length) (C : List Nat) (hCnd : C.Nodup)
    (hCmem : ∀ j, j ∈ C ↔ (j < ss.length ∧ OverlapConnected ss i j)) :
    ∃ li, layoutFind (calculateOverlapLayout ss) i = some li ∧
      (∀ j ∈ C, ∃ lj, layoutFind (calculateOverlapLayout ss) j = some lj ∧
        lj.totalColumns = li.totalColumns) ∧
      (∀ t, activeCount ss C t ≤ li.totalColumns) ∧
      (∃ t, activeCount ss C t = li.totalColumns) ∧
      li.totalColumns = maxSimultaneous ss C := by
  obtain ⟨R, hlay, hnd, hiff, hgroups⟩ := layout_master ss
  have hik : i ∈ (R.map List.flatten).flatten := (hiff i).2 hi
  rw [List.mem_flatten] at hik
  obtain ⟨gl, hgl, hii⟩ := hik
  rw [List.mem_map] at hgl
  obtain ⟨cols, hcols, rfl⟩ := hgl
  obtain ⟨hfnd, hpw, ⟨L, hLclique, hLmem, hLlen⟩, seed, hseedlt, hchar⟩ :=
    hgroups cols hcols
  have hOCsi : OverlapConnected ss seed i := ((hchar i).1 hii).2
  have hCflat : ∀ j, j ∈ C ↔ j ∈ cols.flatten := by
    intro j
    rw [hCmem j, hchar j]
    constructor
    · intro ⟨h1, h2⟩
      exact ⟨h1, hOCsi.trans h2⟩
    · intro ⟨h1, h2⟩
      exact ⟨h1, (overlapConnected_symm ss hOCsi).trans h2⟩
  obtain ⟨ki, hfi, _⟩ := groups_find i R hnd cols hcols hii
  have hupper : ∀ t, activeCount ss C t ≤ cols.length := by
    intro t
    refine clique_le_cols ss cols hpw (C.filter (activeAt ss t)) ⟨?_, ?_⟩ ?_
    · exact hCnd.filter _
    · refine pairwise_of_forall_mem (hCnd.filter _) ?_
      intro x hx y hy hxy
      obtain ⟨_, hax⟩ := List.mem_filter.1 hx
      obtain ⟨_, hay⟩ := List.mem_filter.1 hy
      obtain ⟨h1, h2⟩ := (activeAt_true_iff ss t x).1 hax
      obtain ⟨h3, h4⟩ := (activeAt_true_iff ss t y).1 hay
      rw [ovB_true_iff]
      omega
    · intro x hx
      exact (hCflat x).1 (List.mem_filter.1 hx).1
  have hLne : L ≠ [] := by
    intro h0
    rw [h0] at hLlen
    have : cols = [] := List.length_eq_zero.1 hLlen.symm
    rw [this] at hii
    simp at hii
  obtain ⟨amax, hamem, hmax⟩ := max_by_start ss L hLne
  have hLlt : ∀ x ∈ L, x < ss.length := fun x hx =>
    ((hchar x).1 (hLmem x hx)).1
  have hactive : ∀ b ∈ L,
      activeAt ss ((getS ss amax).heureDebut) b = true := by
    intro b hbL
    rw [activeAt_true_iff]
    refine ⟨hmax b hbL, ?_⟩
    by_cases hba : b = amax
    · subst hba
      exact hnorm _ (getS_mem (hLlt b hbL))
    · have := hLclique.2.forall (ovB_true_symm ss) hamem hbL
        (fun h => hba h.symm)
      rw [ovB_true_iff] at this
      exact this.1
  have hattain : activeCount ss C ((getS ss amax).heureDebut) = cols.length := by
    have hge : L.length ≤ activeCount ss C ((getS ss amax).heureDebut) := by
      refine nodup_length_le hLclique.1 ?_
      intro x hx
      exact List.mem_filter.2 ⟨(hCflat x).2 (hLmem x hx), hactive x hx⟩
    have hle := hupper ((getS ss amax).heureDebut)
    omega
  refine ⟨⟨ki, cols.length⟩, ?_, ?_, hupper, ⟨_, hattain⟩, ?_⟩
  · rw [hlay, layoutFind, hfi]
    rfl
  · intro j hj
    obtain ⟨kj, hfj, _⟩ := groups_find j R hnd cols hcols ((hCflat j).1 hj)
    refine ⟨⟨kj, cols.length⟩, ?_, rfl⟩
    rw [hlay, layoutFind, hfj]
    rfl
  · show cols.length = maxSimultaneous ss C
    obtain ⟨t0, ht0⟩ := maxSimultaneous_attained ss C
    have h1 := hupper t0
    have h2 := maxSimultaneous_ge ss C ((getS ss amax).heureDebut)
    have hle2 : cols.length ≤ maxSimultaneous ss C := by
      rw [← hattain]
      exact h2
    have hge2 : maxSimultaneous ss C ≤ cols.length := by
      rw [← ht0]
      exact h1
    exact Nat.le_antisymm hle2 hge2

/-- Counterexample to C1 as stated: a single zero-duration event
10:00-10:00 forms its own maximal overlap group and receives
totalColumns 1, but no instant has any event of the group active, so the
maximum simultaneous-activity count of the group is 0, not 1 (the index
set of the group is all of range 1, whose maximum dominates that of any
component). -/
theorem calculateOverlapLayout_totalColumns_degenerate_cex :
    layoutFind (calculateOverlapLayout [⟨600, 600⟩]) 0 = some ⟨0, 1⟩ ∧
    maxSimultaneous [⟨600, 600⟩] (List.range 1) = 0 := by
  constructor
  · decide
  · have h0 : ∀ t, activeCount [⟨600, 600⟩] (List.range 1) t = 0 := by
      intro t
      rw [activeCount, List.length_eq_zero, List.filter_eq_nil_iff]
      intro i hi
      rw [List.mem_range] at hi
      interval_cases i
      intro hc
      obtain ⟨h1, h2⟩ := (activeAt_true_iff _ _ _).1 hc
      have hg : getS [(⟨600, 600⟩ : Seance)] 0 = ⟨600, 600⟩ := rfl
      rw [hg] at h1 h2
      simp only at h1 h2
      omega
    rw [maxSimultaneous]
    refine foldr_max_zero _ ?_
    intro x hx
    obtain ⟨t, _, rfl⟩ := List.mem_map.1 hx
    exact h0 t

/-- Witness for the amended C1 on three mutually overlapping events
whose component is the whole index set. -/
theorem calculateOverlapLayout_totalColumns_eq_maxActive_witness :
    (∀ s ∈ ([⟨540, 600⟩, ⟨555, 615⟩, ⟨570, 630⟩] : List Seance),
      s.heureDebut < s.heureFin) ∧
    0 < ([⟨540, 600⟩, ⟨555, 615⟩, ⟨570, 630⟩] : List Seance).length ∧
    ([0, 1, 2] : List Nat).Nodup ∧
    (∀ j, j ∈ ([0, 1, 2] : List Nat) ↔
      (j < ([⟨540, 600⟩, ⟨555, 615⟩, ⟨570, 630⟩] : List Seance).length ∧
        OverlapConnected [⟨540, 600⟩, ⟨555, 615⟩, ⟨570, 630⟩] 0 j)) ∧
    (∃ li, layoutFind (calculateOverlapLayout
        [⟨540, 600⟩, ⟨555, 615⟩, ⟨570, 630⟩]) 0 = some li ∧
      (∀ j ∈ ([0, 1, 2] : List Nat), ∃ lj, layoutFind (calculateOverlapLayout
        [⟨540, 600⟩, ⟨555, 615⟩, ⟨570, 630⟩]) j = some lj ∧
        lj.totalColumns = li.totalColumns) ∧
      (∀ t, activeCount [⟨540, 600⟩, ⟨555, 615⟩, ⟨570, 630⟩] [0, 1, 2] t ≤
        li.totalColumns) ∧
      (∃ t, activeCount [⟨540, 600⟩, ⟨555, 615⟩, ⟨570, 630⟩] [0, 1, 2] t =
        li.totalColumns) ∧
      li.totalColumns = maxSimultaneous [⟨540, 600⟩, ⟨555, 615⟩, ⟨570, 630⟩]
        [0, 1, 2]) := by
  have hmem : ∀ j, j ∈ ([0, 1, 2] : List Nat) ↔
      (j < ([⟨540, 600⟩, ⟨555, 615⟩, ⟨570, 630⟩] : List Seance).length ∧
        OverlapConnected [⟨540, 600⟩, ⟨555, 615⟩, ⟨570, 630⟩] 0 j) := by
    intro j
    constructor
    · intro hj
      simp only [List.mem_cons, List.not_mem_nil, or_false] at hj
      rcases hj with rfl | rfl | rfl
      · exact ⟨by decide, Relation.ReflTransGen.refl⟩
      · exact ⟨by decide,
          Relation.ReflTransGen.single ⟨by decide, by decide, by decide⟩⟩
      · exact ⟨by decide,
          Relation.ReflTransGen.single ⟨by decide, by decide, by decide⟩⟩
    · intro ⟨hj, _⟩
      simp only [List.length_cons, List.length_nil] at hj
      simp only [List.mem_cons, List.mem_singleton]
      omega
  exact ⟨by decide, by decide, by decide, hmem,
    calculateOverlapLayout_totalColumns_eq_maxActive
      [⟨540, 600⟩, ⟨555, 615⟩, ⟨570, 630⟩] (by decide) 0 (by decide)
      [0, 1, 2] (by decide) hmem⟩

/-! Embedding of the favorites migration, src/lib/favorites.ts.  Strings
are Lean strings; the character-level operations (split on the pipe,
lowercasing, substring test) are modelled on the character list of the
string, matching the JavaScript operations used by the source (for
toLowerCase, the ASCII simple case mapping, which covers every input
this development evaluates). -/

/-- One stored favorite record (store schema: filmId is the key,
addedAt the payload). -/
structure StoredFav where
  filmId : String
  addedAt : Nat
deriving DecidableEq, Repr

/-- Screening data consumed by the migration (source: interface
ScreeningForMigration; idScreening models the optional _id_screening). -/
structure ScreeningForMigration where
  date : String
  heureDebut : String
  lieu : String
  titre : Option String
  idScreening : Option String
deriving DecidableEq, Repr

/-- Browser environment: whether window exists and whether
window.indexedDB exists. -/
structure BrowserEnv where
  hasWindow : Bool
  hasIndexedDB : Bool
deriving DecidableEq, Repr

/-- Persistent state touched by the migration: the favorites object
store and the localStorage flag fipadoc_favorites_migrated_v2. -/
structure MigState where
  store : List StoredFav
  migrationFlag : Bool
deriving DecidableEq, Repr

/-- One IndexedDB access performed by migrateFavorites. -/
inductive StoreOp where
  | readAll
  | put (filmId : String) (addedAt : Nat)
  | del (filmId : String)
deriving DecidableEq, Repr

/-- Source: isIndexedDBAvailable, lines 54-59. -/
def isIndexedDBAvailable (env : BrowserEnv) : Bool :=
  env.hasWindow && env.hasIndexedDB

/-- Source: isMigrationComplete, lines 92-95 (no window reports
complete). -/
def isMigrationComplete (env : BrowserEnv) (st : MigState) : Bool :=
  if !env.hasWindow then true else st.migrationFlag

/-- Source: markMigrationComplete, lines 100-104. -/
def markMigrationComplete (env : BrowserEnv) (st : MigState) : MigState :=
  if env.hasWindow then ⟨st.store, true⟩ else st

/-- Source: isOldFormat, lines 109-111 (id.includes('|')). -/
def isOldFormat (id : String) : Bool :=
  id.data.contains '|'

/-- JavaScript String.prototype.split('|') on the character list. -/
def splitPipeL : List Char → List (List Char)
  | [] => [[]]
  | c :: rest =>
    if c = '|' then [] :: splitPipeL rest
    else
      match splitPipeL rest with
      | [] => [[c]]
      | p :: ps => (c :: p) :: ps

/-- The four fields of an old-format favorite identifier. -/
structure ParsedFav where
  date : String
  heureDebut : String
  lieu : String
  titre : String
deriving DecidableEq, Repr

/-- Source: parseOldFavorite, lines 117-127: split on '|' and require
exactly 4 fields. -/
def parseOldFavorite (id : String) : Option ParsedFav :=
  match splitPipeL id.data with
  | [a, b, c, d] => some ⟨String.mk a, String.mk b, String.mk c, String.mk d⟩
  | _ => none

/-- JavaScript String.prototype.toLowerCase, ASCII simple mapping. -/
def jsToLower (s : String) : String := String.mk (s.data.map Char.toLower)

/-- Lookup key built for a screening (line 167):
date|heureDebut|lieu|titre.toLowerCase(). -/
def screeningKey (s : ScreeningForMigration) : String :=
  s.date ++ "|" ++ s.heureDebut ++ "|" ++ s.lieu ++ "|" ++
    jsToLower (s.titre.getD (""))

/-- The JavaScript Map built on lines 162-169, as its list of set calls;
screenings with a missing (or falsy, i.e. empty) _id_screening are
skipped. -/
def buildScreeningMap (screenings : List ScreeningForMigration) :
    List (String × String) :=
  screenings.filterMap (fun s =>
    match s.idScreening with
    | none => none
    | some i => if i = "" then none else some (screeningKey s, i))

/-- Map.get: the value of the last set call for the key. -/
def mapGet (m : List (String × String)) (k : String) : Option String :=
  (m.reverse.find? (fun p => p.1 == k)).map (fun p => p.2)

/-- Lookup key rebuilt from a parsed old favorite (line 178):
date|heureDebut|lieu|titre, the stored titre used verbatim. -/
def oldFavKey (p : ParsedFav) : String :=
  p.date ++ "|" ++ p.heureDebut ++ "|" ++ p.lieu ++ "|" ++ p.titre

/-- IndexedDB get on the favorites store. -/
def storeGet (store : List StoredFav) (k : String) : Option StoredFav :=
  store.find? (fun f => f.filmId == k)

/-- IndexedDB put: replaces the record with the same key, else appends. -/
def storePut (store : List StoredFav) (f : StoredFav) : List StoredFav :=
  store.filter (fun g => !(g.filmId == f.filmId)) ++ [f]

/-- IndexedDB delete by key. -/
def storeDelete (store : List StoredFav) (k : String) : List StoredFav :=
  store.filter (fun g => !(g.filmId == k))

/-- One iteration of the migration loop (lines 173-188), threading the
store contents, the migrated count, and the operation trace. -/
def migrateStep (smap : List (String × String))
    (acc : List StoredFav × Nat × List StoreOp) (oldFav : StoredFav) :
    List StoredFav × Nat × List StoreOp :=
  match parseOldFavorite oldFav.filmId with
  | none => acc
  | some p =>
    match mapGet smap (oldFavKey p) with
    | none => acc
    | some newId =>
      (storeDelete (storePut acc.1 ⟨newId, oldFav.addedAt⟩) oldFav.filmId,
        acc.2.1 + 1,
        acc.2.2 ++ [StoreOp.put newId oldFav.addedAt, StoreOp.del oldFav.filmId])

/-- Result of migrateFavorites: final persistent state, the returned
count, and the IndexedDB operations that were issued. -/
structure MigResult where
  state : MigState
  count : Nat
  ops : List StoreOp
deriving DecidableEq, Repr

/-- Source: migrateFavorites, lines 146-192. -/
def migrateFavorites (env : BrowserEnv)
    (screenings : List ScreeningForMigration) (st : MigState) : MigResult :=
  if !isIndexedDBAvailable env then ⟨st, 0, []⟩
  else if isMigrationComplete env st then ⟨st, 0, []⟩
  else
    let oldFavorites := st.store.filter (fun f => isOldFormat f.filmId)
    if oldFavorites.length = 0 then
      ⟨markMigrationComplete env st, 0, [StoreOp.readAll]⟩
    else
      let r := oldFavorites.foldl (migrateStep (buildScreeningMap screenings))
        (st.store, 0, [StoreOp.readAll])
      ⟨markMigrationComplete env ⟨r.1, st.migrationFlag⟩, r.2.1, r.2.2⟩

/-- Does the migration loop rewrite a favorite stored under this
identifier? -/
def favMatchesKey (smap : List (String × String)) (key : String) : Bool :=
  match parseOldFavorite key with
  | none => false
  | some p => (mapGet smap (oldFavKey p)).isSome

/-- Does the migration loop rewrite this stored favorite? -/
def favMatches (smap : List (String × String)) (f : StoredFav) : Bool :=
  favMatchesKey smap f.filmId

/-- C3: once a call of migrateFavorites has completed with the
migration flag set, a further call with any screenings input returns 0,
issues no store operations, and leaves the persistent state exactly as
the first call left it. -/
theorem migrateFavorites_idempotent (env : BrowserEnv)
    (scr scr2 : List ScreeningForMigration) (st : MigState)
    (h : (migrateFavorites env scr st).state.migrationFlag = true) :
    migrateFavorites env scr2 (migrateFavorites env scr st).state =
      ⟨(migrateFavorites env scr st).state, 0, []⟩ := by
  by_cases hava : isIndexedDBAvailable env = true
  · have hw : env.hasWindow = true := by
      rw [isIndexedDBAvailable, Bool.and_eq_true] at hava
      exact hava.1
    have hcomp : isMigrationComplete env (migrateFavorites env scr st).state
        = true := by
      rw [isMigrationComplete, hw]
      simpa using h
    rw [migrateFavorites, if_neg (by simp [hava]), if_pos hcomp]
  · rw [Bool.not_eq_true] at hava
    rw [migrateFavorites, if_pos (by simp [hava])]

/-- Witness for C3 on a concrete empty store. -/
theorem migrateFavorites_idempotent_witness :
    (migrateFavorites ⟨true, true⟩ [] ⟨[], false⟩).state.migrationFlag
      = true ∧
    migrateFavorites ⟨true, true⟩ []
        (migrateFavorites ⟨true, true⟩ [] ⟨[], false⟩).state =
      ⟨(migrateFavorites ⟨true, true⟩ [] ⟨[], false⟩).state, 0, []⟩ :=
  ⟨by decide,
    migrateFavorites_idempotent ⟨true, true⟩ [] [] ⟨[], false⟩ (by decide)⟩

/-- C8: when IndexedDB is unavailable migrateFavorites is a pure no-op:
it returns 0, issues no store operations, and leaves the state (store
and migration flag) unchanged, so migration stays eligible for a later
call. -/
theorem migrateFavorites_unavailable_noop (env : BrowserEnv)
    (scr : List ScreeningForMigration) (st : MigState)
    (h : isIndexedDBAvailable env = false) :
    migrateFavorites env scr st = ⟨st, 0, []⟩ := by
  rw [migrateFavorites, if_pos (by simp [h])]

/-- Witness for C8 in an environment without window. -/
theorem migrateFavorites_unavailable_noop_witness :
    isIndexedDBAvailable ⟨false, true⟩ = false ∧
    migrateFavorites ⟨false, true⟩ []
        ⟨[⟨"a|b|c|d", 5⟩], false⟩ =
      ⟨⟨[⟨"a|b|c|d", 5⟩], false⟩, 0, []⟩ :=
  ⟨by decide, migrateFavorites_unavailable_noop ⟨false, true⟩ []
    ⟨[⟨"a|b|c|d", 5⟩], false⟩ (by decide)⟩

/-- C5: the documented scenario: one stored old-format favorite for the
film l-ile-aux-esclaves with addedAt 1000 and a matching screening with id
1523 (title matching after lowercasing) is rewritten: migrate returns 1,
the store afterwards holds id 1523 with the same addedAt 1000, and the
old composite key is gone. -/
theorem migrateFavorites_scenario_ile_aux_esclaves :
    (migrateFavorites ⟨true, true⟩
        [⟨"Samedi 24 janvier 2026", "09:30", "Royal 1",
          some ("L\x27île aux esclaves"), some ("1523")⟩]
        ⟨[⟨"Samedi 24 janvier 2026|09:30|Royal 1|l\x27île aux esclaves",
          1000⟩], false⟩).count = 1 ∧
    storeGet (migrateFavorites ⟨true, true⟩
        [⟨"Samedi 24 janvier 2026", "09:30", "Royal 1",
          some ("L\x27île aux esclaves"), some ("1523")⟩]
        ⟨[⟨"Samedi 24 janvier 2026|09:30|Royal 1|l\x27île aux esclaves",
          1000⟩], false⟩).state.store ("1523") = some ⟨"1523", 1000⟩ ∧
    storeGet (migrateFavorites ⟨true, true⟩
        [⟨"Samedi 24 janvier 2026", "09:30", "Royal 1",
          some ("L\x27île aux esclaves"), some ("1523")⟩]
        ⟨[⟨"Samedi 24 janvier 2026|09:30|Royal 1|l\x27île aux esclaves",
          1000⟩], false⟩).state.store
      ("Samedi 24 janvier 2026|09:30|Royal 1|l\x27île aux esclaves") = none := by
  refine ⟨by decide, by decide, by decide⟩

/-! Store and loop lemmas for the two fine-grained migration claims. -/

theorem find?_filter {α : Type} (p q : α → Bool)
    (hpq : ∀ x, p x = true → q x = true) :
    ∀ (l : List α), List.find? p (l.filter q) = List.find? p l
  | [] => rfl
  | x :: l => by
    by_cases hq : q x = true
    · rw [List.filter_cons_of_pos hq]
      by_cases hp : p x = true
      · rw [List.find?_cons_of_pos _ hp, List.find?_cons_of_pos _ hp]
      · rw [List.find?_cons_of_neg _ (by simpa using hp),
          List.find?_cons_of_neg _ (by simpa using hp)]
        exact find?_filter p q hpq l
    · have hp : p x = false := by
        rcases Bool.eq_false_or_eq_true (p x) with h | h
        · exact absurd (hpq x h) hq
        · exact h
      rw [List.filter_cons_of_neg (by simpa using hq),
        List.find?_cons_of_neg _ (by simp [hp])]
      exact find?_filter p q hpq l

theorem storeGet_put_ne (store : List StoredFav) (f : StoredFav) (k : String)
    (hk : k ≠ f.filmId) :
    storeGet (storePut store f) k = storeGet store k := by
  rw [storeGet, storePut, List.find?_append]
  have h1 : List.find? (fun g => g.filmId == k)
      (store.filter (fun g => !(g.filmId == f.filmId))) =
      List.find? (fun g => g.filmId == k) store := by
    refine find?_filter _ _ ?_ store
    intro g hg
    rw [beq_iff_eq] at hg
    simp [hg, hk]
  have h2 : List.find? (fun g => g.filmId == k) [f] = none := by
    rw [List.find?_eq_none]
    intro g hg
    obtain rfl := List.mem_singleton.1 hg
    simp
    exact fun h => hk h.symm
  rw [h1, h2, Option.or_none, storeGet]

theorem storeGet_delete_ne (store : List StoredFav) (dk k : String)
    (hk : k ≠ dk) :
    storeGet (storeDelete store dk) k = storeGet store k := by
  rw [storeGet, storeDelete]
  refine find?_filter _ _ ?_ store
  intro g hg
  rw [beq_iff_eq] at hg
  simp [hg, hk]

theorem storeGet_of_mem_nodup :
    ∀ (store : List StoredFav) (k : String) (t : Nat),
      (store.map StoredFav.filmId).Nodup → ⟨k, t⟩ ∈ store →
      storeGet store k = some ⟨k, t⟩
  | [], _, _, _, hmem => by simp at hmem
  | f :: store, k, t, hnd, hmem => by
    rw [List.map_cons, List.nodup_cons] at hnd
    by_cases hf : f.filmId = k
    · have hft : f = ⟨k, t⟩ := by
        rcases List.mem_cons.1 hmem with h | h
        · exact h.symm
        · exfalso
          apply hnd.1
          have hk : (StoredFav.mk k t).filmId ∈ store.map StoredFav.filmId :=
            List.mem_map_of_mem StoredFav.filmId h
          rw [show (StoredFav.mk k t).filmId = k from rfl, ← hf] at hk
          exact hk
      rw [storeGet, List.find?_cons_of_pos _ (by simp [hf]), hft]
    · have hmem' : ⟨k, t⟩ ∈ store := by
        rcases List.mem_cons.1 hmem with h | h
        · exact absurd (congrArg StoredFav.filmId h.symm) hf
        · exact h
      rw [storeGet, List.find?_cons_of_neg _ (by simp [hf])]
      exact storeGet_of_mem_nodup store k t hnd.2 hmem'

theorem mapGet_some_mem {m : List (String × String)} {k v : String}
    (h : mapGet m k = some v) : (k, v) ∈ m := by
  rw [mapGet] at h
  rcases hf : m.reverse.find? (fun p => p.1 == k) with _ | p
  · rw [hf] at h
    simp at h
  · rw [hf] at h
    have hp : p ∈ m := List.mem_reverse.1 (List.mem_of_find?_eq_some hf)
    have hk : p.1 = k := by simpa using List.find?_some hf
    have hv : p.2 = v := by simpa using h
    rw [← hk, ← hv]
    exact hp

theorem buildScreeningMap_mem {scr : List ScreeningForMigration}
    {key v : String} (h : (key, v) ∈ buildScreeningMap scr) :
    ∃ s ∈ scr, s.idScreening = some v ∧ key = screeningKey s := by
  rw [buildScreeningMap, List.mem_filterMap] at h
  obtain ⟨s, hs, hmk⟩ := h
  rcases hid : s.idScreening with _ | i
  · rw [hid] at hmk
    simp at hmk
  · rw [hid] at hmk
    simp only at hmk
    by_cases hi : i = ""
    · rw [if_pos hi] at hmk
      simp at hmk
    · rw [if_neg hi] at hmk
      have h1 : screeningKey s = key := congrArg Prod.fst (Option.some.inj hmk)
      have h2 : i = v := congrArg Prod.snd (Option.some.inj hmk)
      exact ⟨s, hs, by rw [hid, h2], h1.symm⟩

theorem migrate_fold_count (smap : List (String × String)) :
    ∀ (oldFavs : List StoredFav) (store : List StoredFav) (n : Nat)
      (ops : List StoreOp),
      (oldFavs.foldl (migrateStep smap) (store, n, ops)).2.1 =
        n + (oldFavs.filter (favMatches smap)).length
  | [], _, _, _ => by simp
  | oldFav :: oldFavs, store, n, ops => by
    rw [List.foldl_cons]
    rcases hparse : parseOldFavorite oldFav.filmId with _ | p
    · rw [show migrateStep smap (store, n, ops) oldFav = (store, n, ops) by
        simp only [migrateStep, hparse]]
      rw [migrate_fold_count smap oldFavs store n ops,
        List.filter_cons_of_neg (by simp [favMatches, favMatchesKey, hparse])]
    · rcases hget : mapGet smap (oldFavKey p) with _ | newId
      · rw [show migrateStep smap (store, n, ops) oldFav = (store, n, ops) by
          simp only [migrateStep, hparse, hget]]
        rw [migrate_fold_count smap oldFavs store n ops,
          List.filter_cons_of_neg
            (by simp [favMatches, favMatchesKey, hparse, hget])]
      · rw [show migrateStep smap (store, n, ops) oldFav =
          (storeDelete (storePut store ⟨newId, oldFav.addedAt⟩) oldFav.filmId,
            n + 1, ops ++ [StoreOp.put newId oldFav.addedAt,
              StoreOp.del oldFav.filmId]) by
          simp only [migrateStep, hparse, hget]]
        rw [migrate_fold_count smap oldFavs _ (n + 1) _,
          List.filter_cons_of_pos
            (by simp [favMatches, favMatchesKey, hparse, hget])]
        simp [Nat.add_assoc, Nat.add_comm 1]

theorem migrate_fold_preserve (smap : List (String × String)) (k : String)
    (t : Nat) (hval : ∀ key v, mapGet smap key = some v → v ≠ k) :
    ∀ (oldFavs : List StoredFav) (store : List StoredFav) (n : Nat)
      (ops : List StoreOp),
      (∀ f ∈ oldFavs, f.filmId = k → favMatches smap f = false) →
      storeGet store k = some ⟨k, t⟩ →
      storeGet ((oldFavs.foldl (migrateStep smap) (store, n, ops)).1) k =
        some ⟨k, t⟩
  | [], _, _, _, _, hst => by simpa using hst
  | oldFav :: oldFavs, store, n, ops, hnm, hst => by
    rw [List.foldl_cons]
    rcases hparse : parseOldFavorite oldFav.filmId with _ | p
    · rw [show migrateStep smap (store, n, ops) oldFav = (store, n, ops) by
        simp only [migrateStep, hparse]]
      exact migrate_fold_preserve smap k t hval oldFavs store n ops
        (fun f hf => hnm f (by simp [hf])) hst
    · rcases hget : mapGet smap (oldFavKey p) with _ | newId
      · rw [show migrateStep smap (store, n, ops) oldFav = (store, n, ops) by
          simp only [migrateStep, hparse, hget]]
        exact migrate_fold_preserve smap k t hval oldFavs store n ops
          (fun f hf => hnm f (by simp [hf])) hst
      · rw [show migrateStep smap (store, n, ops) oldFav =
          (storeDelete (storePut store ⟨newId, oldFav.addedAt⟩) oldFav.filmId,
            n + 1, ops ++ [StoreOp.put newId oldFav.addedAt,
              StoreOp.del oldFav.filmId]) by
          simp only [migrateStep, hparse, hget]]
        have hkid : oldFav.filmId ≠ k := by
          intro hc
          have := hnm oldFav (by simp) hc
          simp only [favMatches, favMatchesKey, hparse, hget,
            Option.isSome_some] at this
          exact absurd this (by decide)
        have hknew : k ≠ newId := fun h => hval _ _ hget h.symm
        refine migrate_fold_preserve smap k t hval oldFavs _ (n + 1) _
          (fun f hf => hnm f (by simp [hf])) ?_
        rw [storeGet_delete_ne _ _ _ (fun h => hkid h.symm),
          storeGet_put_ne _ _ _ hknew]
        exact hst

/-- Shared core of C6 and C10: a stored favorite whose key the loop
never rewrites (favMatches is false for it), and whose key no screening
id collides with, is still present unchanged after the migration. -/
theorem migrateFavorites_preserves_entry (env : BrowserEnv)
    (scr : List ScreeningForMigration) (st : MigState) (k : String) (t : Nat)
    (hmem : ⟨k, t⟩ ∈ st.store)
    (hnm : favMatches (buildScreeningMap scr) ⟨k, t⟩ = false)
    (hnodup : (st.store.map StoredFav.filmId).Nodup)
    (hnoclobber : ∀ s ∈ scr, s.idScreening ≠ some k) :
    storeGet (migrateFavorites env scr st).state.store k = some ⟨k, t⟩ := by
  have hst : storeGet st.store k = some ⟨k, t⟩ :=
    storeGet_of_mem_nodup st.store k t hnodup hmem
  rw [migrateFavorites]
  by_cases hava : (!isIndexedDBAvailable env) = true
  · rw [if_pos hava]
    exact hst
  · rw [if_neg hava]
    by_cases hcomp : isMigrationComplete env st = true
    · rw [if_pos hcomp]
      exact hst
    · rw [if_neg hcomp]
      by_cases hlen : (st.store.filter (fun f => isOldFormat f.filmId)).length = 0
      · rw [if_pos hlen]
        show storeGet (markMigrationComplete env st).store k = some ⟨k, t⟩
        rw [markMigrationComplete]
        by_cases hw : env.hasWindow = true
        · rw [if_pos hw]
          exact hst
        · rw [if_neg hw]
          exact hst
      · rw [if_neg hlen]
        show storeGet (markMigrationComplete env
          ⟨_, st.migrationFlag⟩).store k = some ⟨k, t⟩
        have hval : ∀ key v, mapGet (buildScreeningMap scr) key = some v →
            v ≠ k := by
          intro key v hv heq
          obtain ⟨s, hs, hid, _⟩ := buildScreeningMap_mem (mapGet_some_mem hv)
          exact hnoclobber s hs (heq ▸ hid)
        have hnmk : ∀ f ∈ st.store.filter (fun f => isOldFormat f.filmId),
            f.filmId = k → favMatches (buildScreeningMap scr) f = false := by
          intro f _ hfk
          rw [favMatches, hfk]
          exact hnm
        have hpres := migrate_fold_preserve (buildScreeningMap scr) k t hval
          (st.store.filter (fun f => isOldFormat f.filmId)) st.store 0
          [StoreOp.readAll] hnmk hst
        rw [markMigrationComplete]
        by_cases hw : env.hasWindow = true
        · rw [if_pos hw]
          exact hpres
        · rw [if_neg hw]
          exact hpres

/-- C6 (amended): an old-format stored favorite that the loop does not
rewrite (its identifier does not parse into 4 fields, or its
reconstructed key misses the lookup table), provided no screening id in
the snapshot equals its identifier, is left present and unchanged under
its old identifier, the migration flag is still set at the end of the
run, and the returned count is the number of old-format entries that did
match (so the unmatched entry is not counted). -/
theorem migrateFavorites_unmatched_preserved (env : BrowserEnv)
    (scr : List ScreeningForMigration) (st : MigState) (k : String) (t : Nat)
    (hava : isIndexedDBAvailable env = true)
    (hflag : isMigrationComplete env st = false)
    (hmem : ⟨k, t⟩ ∈ st.store)
    (hold : isOldFormat k = true)
    (hnm : favMatches (buildScreeningMap scr) ⟨k, t⟩ = false)
    (hnodup : (st.store.map StoredFav.filmId).Nodup)
    (hnoclobber : ∀ s ∈ scr, s.idScreening ≠ some k) :
    storeGet (migrateFavorites env scr st).state.store k = some ⟨k, t⟩ ∧
    (migrateFavorites env scr st).state.migrationFlag = true ∧
    (migrateFavorites env scr st).count =
      ((st.store.filter (fun f => isOldFormat f.filmId)).filter
        (favMatches (buildScreeningMap scr))).length := by
  have hw : env.hasWindow = true := by
    rw [isIndexedDBAvailable, Bool.and_eq_true] at hava
    exact hava.1
  have hne : ¬((st.store.filter (fun f => isOldFormat f.filmId)).length = 0) := by
    rw [List.length_eq_zero]
    intro h0
    have : (⟨k, t⟩ : StoredFav) ∈ st.store.filter (fun f => isOldFormat f.filmId) :=
      List.mem_filter.2 ⟨hmem, hold⟩
    rw [h0] at this
    simp at this
  have hmig : migrateFavorites env scr st =
      ⟨markMigrationComplete env
        ⟨((st.store.filter (fun f => isOldFormat f.filmId)).foldl
          (migrateStep (buildScreeningMap scr))
          (st.store, 0, [StoreOp.readAll])).1, st.migrationFlag⟩,
        ((st.store.filter (fun f => isOldFormat f.filmId)).foldl
          (migrateStep (buildScreeningMap scr))
          (st.store, 0, [StoreOp.readAll])).2.1,
        ((st.store.filter (fun f => isOldFormat f.filmId)).foldl
          (migrateStep (buildScreeningMap scr))
          (st.store, 0, [StoreOp.readAll])).2.2⟩ := by
    rw [migrateFavorites, if_neg (by simp [hava]), if_neg (by simp [hflag]),
      if_neg hne]
  refine ⟨migrateFavorites_preserves_entry env scr st k t hmem hnm hnodup
    hnoclobber, ?_, ?_⟩
  · rw [hmig]
    show (markMigrationComplete env _).migrationFlag = true
    rw [markMigrationComplete, if_pos hw]
  · rw [hmig]
    show ((st.store.filter (fun f => isOldFormat f.filmId)).foldl
      (migrateStep (buildScreeningMap scr))
      (st.store, 0, [StoreOp.readAll])).2.1 = _
    rw [migrate_fold_count]
    exact Nat.zero_add _

set_option maxRecDepth 4000 in
/-- Counterexample to C6 as stated: with a screening whose stable id is
the composite string a|b|c|d, migrating the matched entry w|x|y|z
overwrites the unmatched entry a|b|c|d (its addedAt changes from 5 to
the value 7 of the matched entry), so an unmatched entry is not always left
unchanged. -/
theorem migrateFavorites_unmatched_preserved_cex :
    favMatches (buildScreeningMap
      [(⟨"w", "x", "y", some ("Z"), some ("a|b|c|d")⟩ : ScreeningForMigration)])
      ⟨"a|b|c|d", 5⟩ = false ∧
    storeGet (migrateFavorites ⟨true, true⟩
        [⟨"w", "x", "y", some ("Z"), some ("a|b|c|d")⟩]
        ⟨[⟨"a|b|c|d", 5⟩, ⟨"w|x|y|z", 7⟩], false⟩).state.store ("a|b|c|d") =
      some ⟨"a|b|c|d", 7⟩ := by
  refine ⟨by decide, by decide⟩

set_option maxRecDepth 4000 in
/-- Witness for the amended C6: one unmatched old entry, empty screening
snapshot. -/
theorem migrateFavorites_unmatched_preserved_witness :
    isIndexedDBAvailable ⟨true, true⟩ = true ∧
    isMigrationComplete ⟨true, true⟩ ⟨[⟨"a|b|c|d", 5⟩], false⟩ = false ∧
    (⟨"a|b|c|d", 5⟩ : StoredFav) ∈
      ([⟨"a|b|c|d", 5⟩] : List StoredFav) ∧
    isOldFormat ("a|b|c|d") = true ∧
    favMatches (buildScreeningMap []) ⟨"a|b|c|d", 5⟩ = false ∧
    (([⟨"a|b|c|d", 5⟩] : List StoredFav).map StoredFav.filmId).Nodup ∧
    (∀ s ∈ ([] : List ScreeningForMigration),
      s.idScreening ≠ some ("a|b|c|d")) ∧
    (storeGet (migrateFavorites ⟨true, true⟩ []
        ⟨[⟨"a|b|c|d", 5⟩], false⟩).state.store ("a|b|c|d") =
      some ⟨"a|b|c|d", 5⟩ ∧
    (migrateFavorites ⟨true, true⟩ []
        ⟨[⟨"a|b|c|d", 5⟩], false⟩).state.migrationFlag = true ∧
    (migrateFavorites ⟨true, true⟩ []
        ⟨[⟨"a|b|c|d", 5⟩], false⟩).count =
      ((([⟨"a|b|c|d", 5⟩] : List StoredFav).filter
        (fun f => isOldFormat f.filmId)).filter
        (favMatches (buildScreeningMap []))).length) :=
  ⟨by decide, by decide, by decide, by decide, by decide, by decide,
    by decide,
    migrateFavorites_unmatched_preserved ⟨true, true⟩ []
      ⟨[⟨"a|b|c|d", 5⟩], false⟩ "a|b|c|d" 5 (by decide) (by decide)
      (by decide) (by decide) (by decide) (by decide) (by decide)⟩

/-! Case-sensitivity of the lookup: a lookup key whose title field holds
an ASCII uppercase letter can never equal a screening key, because every
screening key ends, after its last pipe, in characters produced by
toLowerCase. -/

/-- The characters after the last pipe of a character list. -/
def afterLastPipe (l : List Char) : List Char :=
  (l.reverse.takeWhile (fun c => !(c == '|'))).reverse

theorem takeWhile_append_blocked {p : Char → Bool} (hp : p '|' = false) :
    ∀ (u w : List Char), List.takeWhile p (u ++ '|' :: w) = List.takeWhile p u
  | [], w => by
    rw [List.nil_append, List.takeWhile_cons_of_neg (by simp [hp]),
      List.takeWhile_nil]
  | c :: u, w => by
    by_cases hc : p c = true
    · rw [List.cons_append, List.takeWhile_cons_of_pos hc,
        List.takeWhile_cons_of_pos hc, takeWhile_append_blocked hp u w]
    · rw [List.cons_append, List.takeWhile_cons_of_neg hc,
        List.takeWhile_cons_of_neg hc]

theorem afterLastPipe_append (x y : List Char) :
    afterLastPipe (x ++ '|' :: y) = afterLastPipe y := by
  rw [afterLastPipe, afterLastPipe]
  congr 1
  have hshape : (x ++ '|' :: y).reverse = y.reverse ++ '|' :: x.reverse := by
    rw [List.reverse_append, List.reverse_cons, List.append_assoc,
      List.singleton_append]
  rw [hshape]
  exact takeWhile_append_blocked (by simp) y.reverse x.reverse

theorem takeWhile_eq_self_of_all {p : Char → Bool} :
    ∀ (l : List Char), (∀ c ∈ l, p c = true) → List.takeWhile p l = l
  | [], _ => rfl
  | c :: l, h => by
    rw [List.takeWhile_cons_of_pos (h c (by simp)),
      takeWhile_eq_self_of_all l (fun d hd => h d (by simp [hd]))]

theorem afterLastPipe_no_pipe {y : List Char} (h : '|' ∉ y) :
    afterLastPipe y = y := by
  rw [afterLastPipe, takeWhile_eq_self_of_all, List.reverse_reverse]
  intro c hc
  rw [List.mem_reverse] at hc
  simp only [Bool.not_eq_true', beq_eq_false_iff_ne, ne_eq]
  intro hcp
  exact h (hcp ▸ hc)

theorem mem_of_mem_takeWhile {p : Char → Bool} :
    ∀ {l : List Char} {c : Char}, c ∈ List.takeWhile p l → c ∈ l := by
  intro l
  induction l with
  | nil => intro c hc; simp at hc
  | cons x l ih =>
    intro c hc
    by_cases hx : p x = true
    · rw [List.takeWhile_cons_of_pos hx] at hc
      rcases List.mem_cons.1 hc with rfl | hc
      · simp
      · exact List.mem_cons_of_mem _ (ih hc)
    · rw [List.takeWhile_cons_of_neg hx] at hc
      simp at hc

theorem afterLastPipe_subset {l : List Char} {c : Char}
    (h : c ∈ afterLastPipe l) : c ∈ l := by
  rw [afterLastPipe, List.mem_reverse] at h
  exact List.mem_reverse.1 (mem_of_mem_takeWhile h)

theorem toNat_ofNat_valid (n : Nat) (h : Nat.isValidChar n) :
    (Char.ofNat n).toNat = n := by
  rw [Char.ofNat, dif_pos h]
  rfl

theorem toLower_not_upper (c : Char) :
    ¬(65 ≤ (Char.toLower c).toNat ∧ (Char.toLower c).toNat ≤ 90) := by
  simp only [Char.toLower]
  by_cases h : c.toNat ≥ 65 ∧ c.toNat ≤ 90
  · rw [if_pos h]
    rw [toNat_ofNat_valid (c.toNat + 32) (Or.inl (by omega))]
    omega
  · rw [if_neg h]
    omega

theorem splitPipeL_ne_nil : ∀ (l : List Char), splitPipeL l ≠ []
  | [] => by simp [splitPipeL]
  | c :: rest => by
    rw [splitPipeL]
    by_cases hc : c = '|'
    · rw [if_pos hc]
      simp
    · rw [if_neg hc]
      rcases hs : splitPipeL rest with _ | ⟨p, ps⟩
      · simp
      · simp

theorem splitPipeL_no_pipe : ∀ (l : List Char), ∀ p ∈ splitPipeL l, '|' ∉ p
  | [], p, hp => by
    rw [splitPipeL] at hp
    obtain rfl := List.mem_singleton.1 hp
    simp
  | c :: rest, p, hp => by
    rw [splitPipeL] at hp
    by_cases hc : c = '|'
    · rw [if_pos hc] at hp
      rcases List.mem_cons.1 hp with rfl | hp
      · simp
      · exact splitPipeL_no_pipe rest p hp
    · rw [if_neg hc] at hp
      rcases hs : splitPipeL rest with _ | ⟨p0, ps⟩
      · exact absurd hs (splitPipeL_ne_nil rest)
      · rw [hs] at hp
        rcases List.mem_cons.1 hp with rfl | hp
        · intro hmem
          rcases List.mem_cons.1 hmem with h | h
          · exact hc h.symm
          · exact splitPipeL_no_pipe rest p0 (by rw [hs]; simp) h
        · exact splitPipeL_no_pipe rest p (by rw [hs]; simp [hp])

theorem parseOldFavorite_titre_no_pipe {k : String} {p : ParsedFav}
    (h : parseOldFavorite k = some p) : '|' ∉ p.titre.data := by
  rw [parseOldFavorite] at h
  rcases hsp : splitPipeL k.data with _ | ⟨a, _ | ⟨b, _ | ⟨c, _ | ⟨d, _ | _⟩⟩⟩⟩ <;>
    rw [hsp] at h <;> simp only [] at h
  · exact absurd hsp (splitPipeL_ne_nil k.data)
  · exact absurd h (by simp)
  · exact absurd h (by simp)
  · exact absurd h (by simp)
  · obtain rfl := Option.some.inj h
    show '|' ∉ (String.mk d).data
    exact splitPipeL_no_pipe k.data d (by rw [hsp]; simp)
  · exact absurd h (by simp)

theorem oldFavKey_data (p : ParsedFav) :
    (oldFavKey p).data = p.date.data ++ '|' :: (p.heureDebut.data ++ '|' ::
      (p.lieu.data ++ '|' :: p.titre.data)) := by
  rw [oldFavKey]
  simp only [String.data_append]
  simp [List.append_assoc]

theorem screeningKey_data (s : ScreeningForMigration) :
    (screeningKey s).data = s.date.data ++ '|' :: (s.heureDebut.data ++ '|' ::
      (s.lieu.data ++ '|' :: ((s.titre.getD ("")).data.map Char.toLower))) := by
  rw [screeningKey]
  simp only [String.data_append,
    show (jsToLower (s.titre.getD (""))).data =
      (s.titre.getD ("")).data.map Char.toLower from rfl]
  simp [List.append_assoc]

theorem screeningKey_ne_oldFavKey (p : ParsedFav) (s : ScreeningForMigration)
    (hnp : '|' ∉ p.titre.data)
    (hup : ∃ c ∈ p.titre.data, 65 ≤ c.toNat ∧ c.toNat ≤ 90) :
    screeningKey s ≠ oldFavKey p := by
  intro heq
  have hdata : (screeningKey s).data = (oldFavKey p).data :=
    congrArg String.data heq
  have halp : afterLastPipe ((screeningKey s).data) =
      afterLastPipe ((oldFavKey p).data) := congrArg afterLastPipe hdata
  have h1 : afterLastPipe ((screeningKey s).data) =
      afterLastPipe ((s.titre.getD ("")).data.map Char.toLower) := by
    rw [screeningKey_data, afterLastPipe_append, afterLastPipe_append,
      afterLastPipe_append]
  have h2 : afterLastPipe ((oldFavKey p).data) = p.titre.data := by
    rw [oldFavKey_data, afterLastPipe_append, afterLastPipe_append,
      afterLastPipe_append, afterLastPipe_no_pipe hnp]
  obtain ⟨c, hc, hcu⟩ := hup
  have hcm : c ∈ afterLastPipe ((s.titre.getD ("")).data.map Char.toLower) := by
    rw [← h1, halp, h2]
    exact hc
  have hcl : c ∈ (s.titre.getD ("")).data.map Char.toLower :=
    afterLastPipe_subset hcm
  obtain ⟨c0, _, rfl⟩ := List.mem_map.1 hcl
  exact toLower_not_upper c0 hcu

theorem mapGet_none_of_upper (scr : List ScreeningForMigration)
    (p : ParsedFav) (hnp : '|' ∉ p.titre.data)
    (hup : ∃ c ∈ p.titre.data, 65 ≤ c.toNat ∧ c.toNat ≤ 90) :
    mapGet (buildScreeningMap scr) (oldFavKey p) = none := by
  rw [mapGet]
  have hfind : (buildScreeningMap scr).reverse.find?
      (fun pr => pr.1 == oldFavKey p) = none := by
    rw [List.find?_eq_none]
    intro pr hpr
    have hmem : (pr.1, pr.2) ∈ buildScreeningMap scr := by
      rw [← List.mem_reverse]
      simp at hpr ⊢
      exact hpr
    obtain ⟨s, _, _, hkey⟩ := buildScreeningMap_mem hmem
    simp only [beq_iff_eq]
    rw [hkey]
    exact screeningKey_ne_oldFavKey p s hnp hup
  rw [hfind]
  rfl

/-- C10: the lookup table lowercases screening titles but a stored old
favorite has its title field looked up verbatim, so an old favorite whose
title field contains an ASCII uppercase letter can never match any
screening, is not rewritten, and (barring a screening id colliding with
its identifier) stays in the store unchanged. -/
theorem migrateFavorites_title_case_sensitive (env : BrowserEnv)
    (scr : List ScreeningForMigration) (st : MigState) (k : String) (t : Nat)
    (p : ParsedFav)
    (hmem : ⟨k, t⟩ ∈ st.store)
    (hp : parseOldFavorite k = some p)
    (hup : ∃ c ∈ p.titre.data, 65 ≤ c.toNat ∧ c.toNat ≤ 90)
    (hnodup : (st.store.map StoredFav.filmId).Nodup)
    (hnoclobber : ∀ s ∈ scr, s.idScreening ≠ some k) :
    mapGet (buildScreeningMap scr) (oldFavKey p) = none ∧
    favMatches (buildScreeningMap scr) ⟨k, t⟩ = false ∧
    storeGet (migrateFavorites env scr st).state.store k = some ⟨k, t⟩ := by
  have hnp := parseOldFavorite_titre_no_pipe hp
  have hnone := mapGet_none_of_upper scr p hnp hup
  have hfm : favMatches (buildScreeningMap scr) ⟨k, t⟩ = false := by
    simp only [favMatches, favMatchesKey, hp, hnone, Option.isSome_none]
  exact ⟨hnone, hfm, migrateFavorites_preserves_entry env scr st k t hmem hfm
    hnodup hnoclobber⟩

set_option maxRecDepth 4000 in
/-- Witness for C10: the stored title field Xyz matches the screening
title XYZ case-insensitively, but the lookup misses and the entry is
kept. -/
theorem migrateFavorites_title_case_sensitive_witness :
    (⟨"d|h|v|Xyz", 3⟩ : StoredFav) ∈ ([⟨"d|h|v|Xyz", 3⟩] : List StoredFav) ∧
    parseOldFavorite ("d|h|v|Xyz") = some ⟨"d", "h", "v", "Xyz"⟩ ∧
    (∃ c ∈ (ParsedFav.mk ("d") "h" "v" "Xyz").titre.data,
      65 ≤ c.toNat ∧ c.toNat ≤ 90) ∧
    (([⟨"d|h|v|Xyz", 3⟩] : List StoredFav).map StoredFav.filmId).Nodup ∧
    (∀ s ∈ [(⟨"d", "h", "v", some ("XYZ"), some ("9")⟩ : ScreeningForMigration)],
      s.idScreening ≠ some ("d|h|v|Xyz")) ∧
    (mapGet (buildScreeningMap
        [(⟨"d", "h", "v", some ("XYZ"), some ("9")⟩ : ScreeningForMigration)])
      (oldFavKey ⟨"d", "h", "v", "Xyz"⟩) = none ∧
    favMatches (buildScreeningMap
        [(⟨"d", "h", "v", some ("XYZ"), some ("9")⟩ : ScreeningForMigration)])
      ⟨"d|h|v|Xyz", 3⟩ = false ∧
    storeGet (migrateFavorites ⟨true, true⟩
        [⟨"d", "h", "v", some ("XYZ"), some ("9")⟩]
        ⟨[⟨"d|h|v|Xyz", 3⟩], false⟩).state.store ("d|h|v|Xyz") =
      some ⟨"d|h|v|Xyz", 3⟩) :=
  ⟨by decide, by decide, by decide, by decide, by decide,
    migrateFavorites_title_case_sensitive ⟨true, true⟩
      [⟨"d", "h", "v", some ("XYZ"), some ("9")⟩] ⟨[⟨"d|h|v|Xyz", 3⟩], false⟩
      "d|h|v|Xyz" 3 ⟨"d", "h", "v", "Xyz"⟩ (by decide) (by decide)
      (by decide) (by decide) (by decide)⟩

end Fipadoc
